import Mathlib

/-!
# Muscle calibration pipeline (`calibration_demo.cpp`)

A shallow embedding of the calibration program: the catalogue `jointMotions`, the three
numeric functions `maxJointTorque`, `musclesMvc`, `musclesFatigueRatio`, and the loop of
`main` that stores the per-muscle parameters.

Modelling conventions.

* `double` is an arbitrary linearly ordered field `R`; the natural logarithm is a parameter
  `log : R → R`.  Statements that need the real logarithm instantiate `R := ℝ` and
  `log := Real.log`.  Rounding, underflow, infinities and NaN are not modelled: in the model
  `x / 0 = 0` and `Real.log` is total, where the program gets an infinity or a NaN.
* `std::map<string, V>` is a key-ordered association list `StdMap V`.  Its `operator[]`
  is `StdMap.index`: it returns the stored value, or inserts a value-initialised entry and
  returns that.  It never throws.  A value-initialised `double` is `0`.
* A C++ exception is the `error` side of `Except Exn`.  An unchecked `vector` subscript past
  the end (undefined behaviour in C++) is reported as `Exn.out_of_bounds`.
* The global `jointMotions` is mutable; functions that touch it take it as an argument and
  return its value after the call.
* What a function writes to `std::cerr` is recorded as a list of `Diag` tags (which
  diagnostic was printed, not its text).
-/

namespace Calibration

/-! ## Exceptions, diagnostics, results -/

/-- Ways an evaluation can leave the normal control flow. -/
inductive Exn
  | out_of_range
  | bad_variant_access
  | out_of_bounds
  deriving DecidableEq, Repr

/-- The diagnostics the program prints on `std::cerr`. -/
inductive Diag
  /-- Printed: "The provided motion name ... does not exist in the dictionary of motions". -/
  | unknownMotion
  /-- Printed: "Root value could not converge in the defined number of iterations". -/
  | noConvergence
  /-- Printed: "The provided muscle name ... does not exist in the dictionary of moment
  arms". -/
  | unknownMuscle
  /-- Printed: "The provided force(met) ... does not comply with the condition:
  force(met)<MVC". -/
  | forceNotBelowMvc
  /-- Printed: "The provided muscle name ... does not exist in the dictionaries of forces or
  areas". -/
  | unknownMuscleForcesAreas
  deriving DecidableEq, Repr

/-- What a call produces: its returned value (or the exception that escaped it) together with
the diagnostics it printed. -/
structure Out (α : Type) where
  result : Except Exn α
  cerr : List Diag

/-! ## `std::map<string, V>` -/

/-- A `std::map<string, V>`, as the list of its entries in iteration order. -/
abbrev StdMap (V : Type) := List (String × V)

namespace StdMap

variable {V : Type}

/-- Value stored under `k`, if any (`m.find(k)`). -/
def find (m : StdMap V) (k : String) : Option V :=
  match m with
  | [] => none
  | (k', v) :: rest => if k' = k then some v else find rest k

/-- Number of entries with key `k` (`m.count(k)`): `0` or `1`. -/
def count (m : StdMap V) (k : String) : Nat :=
  match find m k with
  | some _ => 1
  | none => 0

/-- Place a fresh entry at its position in key order. -/
def emplace (m : StdMap V) (k : String) (v : V) : StdMap V :=
  match m with
  | [] => [(k, v)]
  | (k', v') :: rest =>
    if k < k' then (k, v) :: (k', v') :: rest else (k', v') :: emplace rest k v

/-- The member `m.insert({k, v})`: adds the entry only when no entry with key `k` exists;
an existing entry is left as it is. -/
def insert (m : StdMap V) (k : String) (v : V) : StdMap V :=
  match find m k with
  | some _ => m
  | none => emplace m k v

/-- The subscript `m[k]`: the stored value when `k` is present; otherwise an entry holding the
value-initialised `V()`, passed as `init`, is inserted and returned.  The second component is
the map after the access. -/
def index (init : V) (m : StdMap V) (k : String) : V × StdMap V :=
  match find m k with
  | some v => (v, m)
  | none => (init, emplace m k init)

/-- Write `v` through the reference to the existing entry of `k`. -/
def assign (m : StdMap V) (k : String) (v : V) : StdMap V :=
  match m with
  | [] => []
  | (k', v') :: rest => if k' = k then (k', v) :: rest else (k', v') :: assign rest k v

/-- The keys, in iteration order. -/
def keys (m : StdMap V) : List String := m.map Prod.fst

end StdMap

/-! ## The catalogue `jointMotions` -/

/-- The type `variant<double, vector<string>, vector<double>>`. -/
inductive Variant (R : Type)
  | dbl (x : R)
  | strs (l : List String)
  | dbls (l : List R)

/-- A value-initialised variant holds its first alternative, the `double` `0`. -/
def Variant.init {R : Type} [Zero R] : Variant R := Variant.dbl 0

/-- The call `std::get<double>(v)`. -/
def getDouble {R : Type} : Variant R → Except Exn R
  | Variant.dbl x => Except.ok x
  | _ => Except.error Exn.bad_variant_access

/-- The call `std::get<vector<string>>(v)`. -/
def getStrings {R : Type} : Variant R → Except Exn (List String)
  | Variant.strs l => Except.ok l
  | _ => Except.error Exn.bad_variant_access

/-- The call `std::get<vector<double>>(v)`. -/
def getDoubles {R : Type} : Variant R → Except Exn (List R)
  | Variant.dbls l => Except.ok l
  | _ => Except.error Exn.bad_variant_access

/-- The type `Dict` of the source. -/
abbrev Dict (R : Type) := StdMap (StdMap (Variant R))

/-- The nested subscript `d[a][b]`, with the dictionary after both accesses. -/
def Dict.index2 {R : Type} [Zero R] (d : Dict R) (a b : String) : Variant R × Dict R :=
  let (inner, d1) := StdMap.index [] d a
  let (v, inner1) := StdMap.index Variant.init inner b
  (v, StdMap.assign d1 a inner1)

/-! ## The table `calibrationData` of `main` -/

/-- The type `variant<double, map<string, double>>`. -/
inductive CalVariant (R : Type)
  | dbl (x : R)
  | tbl (m : StdMap R)

/-- A value-initialised variant holds its first alternative, the `double` `0`. -/
def CalVariant.init {R : Type} [Zero R] : CalVariant R := CalVariant.dbl 0

/-- The call `std::get<double>(v)`. -/
def getCalDouble {R : Type} : CalVariant R → Except Exn R
  | CalVariant.dbl x => Except.ok x
  | _ => Except.error Exn.bad_variant_access

/-- The call `std::get<map<string, double>>(v)`. -/
def getTable {R : Type} : CalVariant R → Except Exn (StdMap R)
  | CalVariant.tbl m => Except.ok m
  | _ => Except.error Exn.bad_variant_access

/-- The type of `calibrationData`. -/
abbrev CalData (R : Type) := StdMap (StdMap (CalVariant R))

/-- The nested subscript `calibrationData[a][b]`, with the table after both accesses. -/
def CalData.index2 {R : Type} [Zero R] (d : CalData R) (a b : String) :
    CalVariant R × CalData R :=
  let (inner, d1) := StdMap.index [] d a
  let (v, inner1) := StdMap.index CalVariant.init inner b
  (v, StdMap.assign d1 a inner1)

/-- Write `v` through the reference `calibrationData[a][b]` to an existing entry. -/
def CalData.assign2 {R : Type} (d : CalData R) (a b : String) (v : CalVariant R) :
    CalData R :=
  match StdMap.find d a with
  | some inner => StdMap.assign d a (StdMap.assign inner b v)
  | none => d

section Program

variable {R : Type} [LinearOrderedField R]

/-- The global `jointMotions` as initialised. -/
def jointMotions (R : Type) [LinearOrderedField R] : Dict R :=
  [ ("elbow_extension",
      [ ("f_ratio", Variant.dbl 1.0),
        ("muscles", Variant.strs ["TRILong", "TRILat", "TRIMed"]),
        ("proportion", Variant.dbls [1, 0.929, 0.929]) ]),
    ("elbow_flexion",
      [ ("f_ratio", Variant.dbl 1.1616),
        ("muscles", Variant.strs ["BICLong", "BICShort", "BRA", "BRD"]),
        ("proportion", Variant.dbls [1, 0.603, 2.24, 0.525]) ]),
    ("hand_grip",
      [ ("f_ratio", Variant.dbl 1.1227),
        ("muscles", Variant.strs ["CC", "DD"]),
        ("proportion", Variant.dbls [1, 0.7]) ]) ]

/-! ## `maxJointTorque` -/

/-- The local `initValue`. -/
def initValue : R := 0.1

/-- The local `delta`. -/
def delta : R := 0.000000001

/-- The local `maxIts`. -/
def maxIts : Nat := 100

/-- The assignment `x = x - (f(x)/f'(x))` of the loop body. -/
def newtonUpdate (log : R → R) (lamF torqueAtMet areaCurveTorqueUntilMet maxTorq : R) : R :=
  maxTorq - (log (torqueAtMet / maxTorq) + (lamF * areaCurveTorqueUntilMet / maxTorq))
    / ((-1) * (1 / maxTorq + lamF * areaCurveTorqueUntilMet / (maxTorq * maxTorq)))

/-- The numerator `f(x)` in the update of the loop body. -/
def updateNumerator (log : R → R) (lamF torqueAtMet areaCurveTorqueUntilMet maxTorq : R) : R :=
  log (torqueAtMet / maxTorq) + (lamF * areaCurveTorqueUntilMet / maxTorq)

/-- The denominator `f'(x)` in the update of the loop body. -/
def updateDenominator (lamF areaCurveTorqueUntilMet maxTorq : R) : R :=
  (-1) * (1 / maxTorq + lamF * areaCurveTorqueUntilMet / (maxTorq * maxTorq))

/-- The `for` loop of `maxJointTorque` with `n` iterations left, followed by the code after
the loop. -/
def newtonLoop (log : R → R) (lamF torqueAtMet areaCurveTorqueUntilMet : R) :
    Nat → R → Out R
  | 0, _ => ⟨Except.ok (-1), [Diag.noConvergence]⟩
  | n + 1, maxTorq =>
    let maxTorqPrev := maxTorq
    let maxTorq := newtonUpdate log lamF torqueAtMet areaCurveTorqueUntilMet maxTorq
    if |maxTorq - maxTorqPrev| / |maxTorqPrev| < delta then
      ⟨Except.ok maxTorq, []⟩
    else
      newtonLoop log lamF torqueAtMet areaCurveTorqueUntilMet n maxTorq

/-- The function `maxJointTorque`; the second component is `jointMotions` after the call. -/
def maxJointTorque (log : R → R) (jm : Dict R) (motionName : String)
    (torqueAtMet areaCurveTorqueUntilMet : R) : Out R × Dict R :=
  let (v, jm1) := Dict.index2 jm motionName "f_ratio"
  match getDouble v with
  | Except.error Exn.out_of_range => (⟨Except.ok (-1), [Diag.unknownMotion]⟩, jm1)
  | Except.error e => (⟨Except.error e, []⟩, jm1)
  | Except.ok lamF =>
    (newtonLoop log lamF torqueAtMet areaCurveTorqueUntilMet maxIts initValue, jm1)

/-! ## `musclesMvc` -/

/-- An unchecked `vector` subscript `l[i]`. -/
def vecAt {α : Type} (l : List α) (i : Nat) : Except Exn α :=
  match l[i]? with
  | some x => Except.ok x
  | none => Except.error Exn.out_of_bounds

/-- The first `for` loop of `musclesMvc` (the body of its second `try`), with `n` iterations
left, at index `i`, with the running `sumPropXArms` and the local copy of `momentArms`. -/
def sumPropXArmsLoop (muscles : List String) (proportions : List R) :
    Nat → Nat → R → StdMap R → Except Exn R
  | 0, _, sumPropXArms, _ => Except.ok sumPropXArms
  | n + 1, i, sumPropXArms, momentArms =>
    match vecAt proportions i with
    | Except.error e => Except.error e
    | Except.ok proportion =>
      match vecAt muscles i with
      | Except.error e => Except.error e
      | Except.ok muscle =>
        let (arm, momentArms1) := StdMap.index 0 momentArms muscle
        sumPropXArmsLoop muscles proportions n (i + 1) (sumPropXArms + proportion * arm)
          momentArms1

/-- The function `musclesMvc`; the second component is `jointMotions` after the call. -/
def musclesMvc (jm : Dict R) (motionName : String) (maxJointTorq : R)
    (momentArms : StdMap R) : Out (List R) × Dict R :=
  let (vm, jm1) := Dict.index2 jm motionName "muscles"
  match getStrings vm with
  | Except.error Exn.out_of_range => (⟨Except.ok [], [Diag.unknownMotion]⟩, jm1)
  | Except.error e => (⟨Except.error e, []⟩, jm1)
  | Except.ok muscles =>
    let (vp, jm2) := Dict.index2 jm1 motionName "proportion"
    match getDoubles vp with
    | Except.error Exn.out_of_range => (⟨Except.ok [], [Diag.unknownMotion]⟩, jm2)
    | Except.error e => (⟨Except.error e, []⟩, jm2)
    | Except.ok proportions =>
      match sumPropXArmsLoop muscles proportions muscles.length 0 0 momentArms with
      | Except.error Exn.out_of_range => (⟨Except.ok [], [Diag.unknownMuscle]⟩, jm2)
      | Except.error e => (⟨Except.error e, []⟩, jm2)
      | Except.ok sumPropXArms =>
        let refMuscleMvc := maxJointTorq / sumPropXArms
        (⟨Except.ok (proportions.map (fun proportion => refMuscleMvc * proportion)), []⟩, jm2)

/-! ## `musclesFatigueRatio` -/

/-- The `for` loop of `musclesFatigueRatio` with `n` iterations left, at index `i`, with the
ratios pushed so far, followed by the final `return musclesFR`. -/
def fatigueLoop (log : R → R)
    (musclesMvcList forcesAtMetFiltered areaCurveForceUntilMetFiltered : List R) :
    Nat → Nat → List R → Out (List R)
  | 0, _, musclesFR => ⟨Except.ok musclesFR, []⟩
  | n + 1, i, musclesFR =>
    match vecAt forcesAtMetFiltered i with
    | Except.error e => ⟨Except.error e, []⟩
    | Except.ok forceMuscle =>
      match vecAt musclesMvcList i with
      | Except.error e => ⟨Except.error e, []⟩
      | Except.ok mvcMuscle =>
        match vecAt areaCurveForceUntilMetFiltered i with
        | Except.error e => ⟨Except.error e, []⟩
        | Except.ok areaMuscle =>
          if forceMuscle ≥ mvcMuscle then
            ⟨Except.ok [], [Diag.forceNotBelowMvc]⟩
          else
            fatigueLoop log musclesMvcList forcesAtMetFiltered areaCurveForceUntilMetFiltered
              n (i + 1)
              (musclesFR ++ [(-1) * log (forceMuscle / mvcMuscle) * mvcMuscle / areaMuscle])

/-- The function `musclesFatigueRatio`. -/
def musclesFatigueRatio (log : R → R)
    (musclesMvcList forcesAtMetFiltered areaCurveForceUntilMetFiltered : List R) :
    Out (List R) :=
  fatigueLoop log musclesMvcList forcesAtMetFiltered areaCurveForceUntilMetFiltered
    musclesMvcList.length 0 []

/-! ## The store loop of `main` -/

/-- The statement `musclesParameters.insert({muscles[i], {musclesMvcList[i],
musclesFatigueRatioList[i]}})` that ends the body of the store loop. -/
def storeInsert (musclesMvcList musclesFatigueRatioList : List R) (muscle : String) (i : Nat)
    (musclesParameters : StdMap (List R)) : Except Exn (StdMap (List R)) :=
  match vecAt musclesMvcList i with
  | Except.error e => Except.error e
  | Except.ok mvc =>
    match vecAt musclesFatigueRatioList i with
    | Except.error e => Except.error e
    | Except.ok fr => Except.ok (StdMap.insert musclesParameters muscle [mvc, fr])

/-- One pass through the body of the store loop (step 4 of `main`) at index `i`. -/
def storeBody (muscles : List String) (musclesMvcList musclesFatigueRatioList : List R)
    (i : Nat) (musclesParameters : StdMap (List R)) : Except Exn (StdMap (List R)) :=
  match vecAt muscles i with
  | Except.error e => Except.error e
  | Except.ok muscle =>
    if StdMap.count musclesParameters muscle > 0 then
      let (entry, musclesParameters1) := StdMap.index [] musclesParameters muscle
      match vecAt entry 0 with
      | Except.error e => Except.error e
      | Except.ok prevMvc =>
        match vecAt musclesMvcList i with
        | Except.error e => Except.error e
        | Except.ok mvc =>
          if prevMvc > mvc then
            Except.ok musclesParameters1
          else
            storeInsert musclesMvcList musclesFatigueRatioList muscle i musclesParameters1
    else
      storeInsert musclesMvcList musclesFatigueRatioList muscle i musclesParameters

/-- The store loop with `n` iterations left, at index `i`. -/
def storeLoop (muscles : List String) (musclesMvcList musclesFatigueRatioList : List R) :
    Nat → Nat → StdMap (List R) → Except Exn (StdMap (List R))
  | 0, _, musclesParameters => Except.ok musclesParameters
  | n + 1, i, musclesParameters =>
    match storeBody muscles musclesMvcList musclesFatigueRatioList i musclesParameters with
    | Except.error e => Except.error e
    | Except.ok musclesParameters1 =>
      storeLoop muscles musclesMvcList musclesFatigueRatioList n (i + 1) musclesParameters1

/-- What one motion hands to the store loop: its `muscles`, `musclesMvcList` and
`musclesFatigueRatioList`. -/
structure MotionResult (R : Type) where
  muscles : List String
  musclesMvcList : List R
  musclesFatigueRatioList : List R

/-- Step 4 of `main` for one motion. -/
def store (musclesParameters : StdMap (List R)) (r : MotionResult R) :
    Except Exn (StdMap (List R)) :=
  storeLoop r.muscles r.musclesMvcList r.musclesFatigueRatioList r.muscles.length 0
    musclesParameters

/-- Step 4 of `main` run over the motions in the order they are processed, from the
`musclesParameters` given. -/
def aggregate (musclesParameters : StdMap (List R)) :
    List (MotionResult R) → Except Exn (StdMap (List R))
  | [] => Except.ok musclesParameters
  | r :: rest =>
    match store musclesParameters r with
    | Except.error e => Except.error e
    | Except.ok musclesParameters1 => aggregate musclesParameters1 rest

/-! ## `main` -/

/-- The local `calibrationData` as initialised. -/
def calibrationData (R : Type) [LinearOrderedField R] : CalData R :=
  [ ("elbow_flexion",
      [ ("all_area_curve_force_until_met", CalVariant.tbl
          [ ("BICLong", 1800), ("BICShort", 1200), ("BRA", 3600), ("BRD", 1200),
            ("TRILat", 0), ("TRILong", 0), ("TRIMed", 0) ]),
        ("all_forces_at_met", CalVariant.tbl
          [ ("BICLong", 200), ("BICShort", 100), ("BRA", 400), ("BRD", 100),
            ("TRILat", 0), ("TRILong", 0), ("TRIMed", 0) ]),
        ("area_curve_torque_until_met", CalVariant.dbl 700),
        ("moment_arms", CalVariant.tbl
          [ ("BICLong", 0.05), ("BICShort", 0.05), ("BRA", 0.02), ("BRD", 0.08) ]),
        ("torque_at_met", CalVariant.dbl 20) ]) ]

/-- A value that `calibrationData` can be given: the table of the source with one number
changed, the force of `BICLong` at MET, `5000` in place of `200`. -/
def overloadedCalibrationData (R : Type) [LinearOrderedField R] : CalData R :=
  [ ("elbow_flexion",
      [ ("all_area_curve_force_until_met", CalVariant.tbl
          [ ("BICLong", 1800), ("BICShort", 1200), ("BRA", 3600), ("BRD", 1200),
            ("TRILat", 0), ("TRILong", 0), ("TRIMed", 0) ]),
        ("all_forces_at_met", CalVariant.tbl
          [ ("BICLong", 5000), ("BICShort", 100), ("BRA", 400), ("BRD", 100),
            ("TRILat", 0), ("TRILong", 0), ("TRIMed", 0) ]),
        ("area_curve_torque_until_met", CalVariant.dbl 700),
        ("moment_arms", CalVariant.tbl
          [ ("BICLong", 0.05), ("BICShort", 0.05), ("BRA", 0.02), ("BRD", 0.08) ]),
        ("torque_at_met", CalVariant.dbl 20) ]) ]

/-- What steps 1 to 3 of a pass of the motion loop read and write besides their locals: the
global `jointMotions`, the local `calibrationData` of `main`, and the diagnostics printed so
far. -/
structure Env (R : Type) where
  jointMotions : Dict R
  calibrationData : CalData R
  cerr : List Diag

/-- The state of `main` between two passes of its motion loop. -/
structure MainState (R : Type) where
  env : Env R
  musclesParameters : StdMap (List R)

/-- How one pass of the motion loop ends: the loop goes on, or `main` returns. -/
inductive Flow (σ : Type)
  | next (s : σ)
  | returned (s : σ)

/-- The range-`for` of step 3 (the body of the `try` of `main`) over the muscles still to
visit, with the two vectors filled so far. -/
def filterLoop (motionName : String) :
    List String → CalData R → List R → List R → Except Exn (List R × List R × CalData R)
  | [], cd, forcesAtMetFiltered, areaCurveForceUntilMetFiltered =>
    Except.ok (forcesAtMetFiltered, areaCurveForceUntilMetFiltered, cd)
  | muscle :: rest, cd, forcesAtMetFiltered, areaCurveForceUntilMetFiltered =>
    let (vf, cd1) := CalData.index2 cd motionName "all_forces_at_met"
    match getTable vf with
    | Except.error e => Except.error e
    | Except.ok forces =>
      let (force, forces1) := StdMap.index 0 forces muscle
      let cd2 := CalData.assign2 cd1 motionName "all_forces_at_met" (CalVariant.tbl forces1)
      let (va, cd3) := CalData.index2 cd2 motionName "all_area_curve_force_until_met"
      match getTable va with
      | Except.error e => Except.error e
      | Except.ok areas =>
        let (area, areas1) := StdMap.index 0 areas muscle
        let cd4 := CalData.assign2 cd3 motionName "all_area_curve_force_until_met"
          (CalVariant.tbl areas1)
        filterLoop motionName rest cd4 (forcesAtMetFiltered ++ [force])
          (areaCurveForceUntilMetFiltered ++ [area])

/-- Steps 1 to 3 of one pass of the motion loop of `main`, for the key `motionName` of
`calibrationData`: the lists handed to the store loop, or `none` when the handler of the `try`
makes `main` return. -/
def mainSteps (log : R → R) (motionName : String) (s : Env R) :
    Except Exn (Option (MotionResult R) × Env R) :=
  -- 1. maximum joint torque
  let (vT, cd1) := CalData.index2 s.calibrationData motionName "torque_at_met"
  match getCalDouble vT with
  | Except.error e => Except.error e
  | Except.ok torqueAtMet =>
  let (vA, cd2) := CalData.index2 cd1 motionName "area_curve_torque_until_met"
  match getCalDouble vA with
  | Except.error e => Except.error e
  | Except.ok areaCurveTorqueUntilMet =>
  let (o1, jm1) := maxJointTorque log s.jointMotions motionName torqueAtMet
    areaCurveTorqueUntilMet
  match o1.result with
  | Except.error e => Except.error e
  | Except.ok maxJointTorq =>
  -- 2. MVC of the participant muscles
  let (vm, jm2) := Dict.index2 jm1 motionName "muscles"
  match getStrings vm with
  | Except.error e => Except.error e
  | Except.ok muscles =>
  let (va, cd3) := CalData.index2 cd2 motionName "moment_arms"
  match getTable va with
  | Except.error e => Except.error e
  | Except.ok momentArms =>
  let (o2, jm3) := musclesMvc jm2 motionName maxJointTorq momentArms
  match o2.result with
  | Except.error e => Except.error e
  | Except.ok musclesMvcList =>
  -- 3. fatigue ratio of the participant muscles
  let (vm', jm4) := Dict.index2 jm3 motionName "muscles"
  match getStrings vm' with
  | Except.error e => Except.error e
  | Except.ok muscles' =>
  match filterLoop motionName muscles' cd3 [] [] with
  | Except.error Exn.out_of_range =>
    Except.ok (none,
      { jointMotions := jm4, calibrationData := cd3,
        cerr := s.cerr ++ o1.cerr ++ o2.cerr ++ [Diag.unknownMuscleForcesAreas] })
  | Except.error e => Except.error e
  | Except.ok (forcesAtMetFiltered, areaCurveForceUntilMetFiltered, cd4) =>
  let o3 := musclesFatigueRatio log musclesMvcList forcesAtMetFiltered
    areaCurveForceUntilMetFiltered
  match o3.result with
  | Except.error e => Except.error e
  | Except.ok musclesFatigueRatioList =>
    Except.ok (some
      { muscles := muscles, musclesMvcList := musclesMvcList,
        musclesFatigueRatioList := musclesFatigueRatioList },
      { jointMotions := jm4, calibrationData := cd4,
        cerr := s.cerr ++ o1.cerr ++ o2.cerr ++ o3.cerr })

/-- One pass of the motion loop of `main`: steps 1 to 3, then the store loop (step 4). -/
def mainBody (log : R → R) (motionName : String) (s : MainState R) :
    Except Exn (Flow (MainState R)) :=
  match mainSteps log motionName s.env with
  | Except.error e => Except.error e
  | Except.ok (none, env1) =>
    Except.ok (Flow.returned { env := env1, musclesParameters := s.musclesParameters })
  | Except.ok (some r, env1) =>
    match store s.musclesParameters r with
    | Except.error e => Except.error e
    | Except.ok musclesParameters1 =>
      Except.ok (Flow.next { env := env1, musclesParameters := musclesParameters1 })

/-- The motion loop of `main` over the keys of `calibrationData` still to visit. -/
def mainLoop (log : R → R) : List String → MainState R → Except Exn (MainState R)
  | [], s => Except.ok s
  | motionName :: rest, s =>
    match mainBody log motionName s with
    | Except.error e => Except.error e
    | Except.ok (Flow.returned s1) => Except.ok s1
    | Except.ok (Flow.next s1) => mainLoop log rest s1

/-- The function `main` up to the end of its motion loop, for given initial values of
`jointMotions` and `calibrationData`. -/
def main (log : R → R) (jm : Dict R) (cd : CalData R) : Except Exn (MainState R) :=
  mainLoop log (StdMap.keys cd)
    { env := { jointMotions := jm, calibrationData := cd, cerr := [] },
      musclesParameters := [] }

/-! ## Quantities named by the specification -/

/-- The moment arm the specification writes `momentArms[muscle]`; a muscle without an entry
reads as `0`, the value the subscript of the code yields for it. -/
def armOf (momentArms : StdMap R) (muscle : String) : R :=
  (StdMap.find momentArms muscle).getD 0

/-- The specification's `weightedSum = Σ_i proportions[i] · momentArms[muscles[i]]`. -/
def weightedSum (muscles : List String) (proportions : List R) (momentArms : StdMap R) : R :=
  (List.zipWith (fun proportion muscle => proportion * armOf momentArms muscle)
    proportions muscles).sum

/-- The specification's model function `f(x) = ln(T / x) + λF·A / x`. -/
def modelF (log : R → R) (lamF T A x : R) : R :=
  log (T / x) + lamF * A / x

/-- The specification's analytic derivative `f'(x) = -(1/x + λF·A / x²)`. -/
def modelF' (lamF A x : R) : R :=
  -(1 / x + lamF * A / x ^ 2)

/-- The specification's Newton-Raphson sequence: `x₀ = 0.1`,
`x_{n+1} = x_n - f(x_n)/f'(x_n)`. -/
def newtonSeq (log : R → R) (lamF T A : R) : Nat → R
  | 0 => 0.1
  | n + 1 =>
    newtonSeq log lamF T A n
      - modelF log lamF T A (newtonSeq log lamF T A n) / modelF' lamF A (newtonSeq log lamF T A n)

/-- The specification's convergence test at step `n`: `|x_{n+1} - x_n| / |x_n| < 1e-9`. -/
def converged (log : R → R) (lamF T A : R) (n : Nat) : Prop :=
  |newtonSeq log lamF T A (n + 1) - newtonSeq log lamF T A n| / |newtonSeq log lamF T A n|
    < 1e-9

/-- The relative size `(x' - x) / x` of the Newton step taken from `x`, in closed form:
`x · f(x) / (x + λF·A)`. -/
def relStep (log : R → R) (lamF T A x : R) : R :=
  x * modelF log lamF T A x / (x + lamF * A)

instance (log : R → R) (lamF T A : R) (n : Nat) : Decidable (converged log lamF T A n) := by
  unfold converged
  infer_instance

end Program

end Calibration

/-! # Theorems -/

namespace Calibration

/-! ## Facts about `StdMap` -/

namespace StdMap

variable {V : Type}

/-- A fresh entry placed in the map is found under its key. -/
theorem find_emplace_self (m : StdMap V) (k : String) (v : V) (h : find m k = none) :
    find (emplace m k v) k = some v := by
  induction m with
  | nil => simp [emplace, find]
  | cons p rest ih =>
    obtain ⟨k', v'⟩ := p
    by_cases hk : k' = k
    · simp [find, hk] at h
    · simp only [find, hk, if_false] at h
      by_cases hlt : k < k'
      · simp [emplace, hlt, find]
      · simp [emplace, hlt, find, hk, ih h]

/-- Placing an entry under `k` does not change what is found under another key. -/
theorem find_emplace_ne (m : StdMap V) (k k' : String) (v : V) (hne : k ≠ k') :
    find (emplace m k v) k' = find m k' := by
  induction m with
  | nil => simp [emplace, find, hne]
  | cons p rest ih =>
    obtain ⟨k₁, v₁⟩ := p
    by_cases hlt : k < k₁
    · simp [emplace, hlt, find, hne]
    · simp [emplace, hlt, find, ih]

/-- The member `insert` leaves a map that already holds the key as it is. -/
theorem insert_of_find_some (m : StdMap V) (k : String) (v e : V) (h : find m k = some e) :
    insert m k v = m := by
  simp [insert, h]

/-- The member `insert` places the entry when the key is absent. -/
theorem insert_of_find_none (m : StdMap V) (k : String) (v : V) (h : find m k = none) :
    insert m k v = emplace m k v := by
  simp [insert, h]

/-- The subscript on a present key reads the entry and leaves the map as it is. -/
theorem index_of_find_some (init : V) (m : StdMap V) (k : String) (v : V)
    (h : find m k = some v) : index init m k = (v, m) := by
  simp [index, h]

/-- The subscript on an absent key places a value-initialised entry. -/
theorem index_of_find_none (init : V) (m : StdMap V) (k : String)
    (h : find m k = none) : index init m k = (init, emplace m k init) := by
  simp [index, h]

/-- Writing back the value an entry already holds leaves the map as it is. -/
theorem assign_of_find_some (m : StdMap V) (k : String) (v : V) (h : find m k = some v) :
    assign m k v = m := by
  induction m with
  | nil => rfl
  | cons p rest ih =>
    obtain ⟨k', v'⟩ := p
    by_cases hk : k' = k
    · simp only [find, hk, if_true, Option.some.injEq] at h
      simp [assign, hk, h]
    · simp only [find, hk, if_false] at h
      simp [assign, hk, ih h]

/-- Reading through the subscript gives the stored value, or the initial value. -/
theorem index_fst (init : V) (m : StdMap V) (k : String) :
    (index init m k).1 = (find m k).getD init := by
  cases h : find m k <;> simp [index, h]

/-- After a subscript access the map reads as before, with absent keys read as `init`. -/
theorem find_index_snd_getD (init : V) (m : StdMap V) (k k' : String) :
    (find (index init m k).2 k').getD init = (find m k').getD init := by
  cases h : find m k with
  | some v => simp [index, h]
  | none =>
    simp only [index, h]
    by_cases hk : k = k'
    · subst hk
      simp [find_emplace_self m k init h, h]
    · simp [find_emplace_ne m k k' init hk]

/-- The keys of a map are the keys under which something is found. -/
theorem mem_keys_iff (m : StdMap V) (k : String) :
    k ∈ keys m ↔ ∃ v, find m k = some v := by
  induction m with
  | nil => simp [keys, find]
  | cons p rest ih =>
    obtain ⟨k', v'⟩ := p
    have ih' : k ∈ List.map Prod.fst rest ↔ ∃ v, find rest k = some v := ih
    by_cases hk : k' = k
    · subst hk
      simp [keys, find]
    · have hk' : ¬ k = k' := fun h => hk h.symm
      simp only [keys, List.map_cons, List.mem_cons, hk', false_or, find, hk, if_false]
      exact ih'

/-- Placing an entry under `k` adds the key `k` and no other. -/
theorem mem_keys_emplace (m : StdMap V) (k k' : String) (v : V) :
    k' ∈ keys (emplace m k v) ↔ k' = k ∨ k' ∈ keys m := by
  induction m with
  | nil => simp [keys, emplace]
  | cons p rest ih =>
    obtain ⟨k₁, v₁⟩ := p
    have ih' : k' ∈ List.map Prod.fst (emplace rest k v)
        ↔ k' = k ∨ k' ∈ List.map Prod.fst rest := ih
    by_cases hlt : k < k₁
    · simp [keys, emplace, hlt]
    · simp only [keys, emplace, hlt, if_false, List.map_cons, List.mem_cons, ih']
      tauto

/-- Placing an entry under an absent key keeps the keys distinct. -/
theorem nodup_keys_emplace (m : StdMap V) (k : String) (v : V) (h : find m k = none)
    (hnd : (keys m).Nodup) : (keys (emplace m k v)).Nodup := by
  induction m with
  | nil => simp [keys, emplace]
  | cons p rest ih =>
    obtain ⟨k₁, v₁⟩ := p
    have hk : ¬ k₁ = k := by
      intro hk
      simp [find, hk] at h
    have hrest : find rest k = none := by
      simpa [find, hk] using h
    have hnd' : k₁ ∉ keys rest ∧ (keys rest).Nodup := by
      simpa [keys] using hnd
    have hknot : k ∉ keys (((k₁, v₁) :: rest : StdMap V)) := by
      rw [mem_keys_iff]
      simp [h]
    by_cases hlt : k < k₁
    · have : keys (emplace ((k₁, v₁) :: rest) k v) = k :: keys ((k₁, v₁) :: rest) := by
        simp [keys, emplace, hlt]
      rw [this]
      exact List.nodup_cons.mpr ⟨hknot, hnd⟩
    · have : keys (emplace ((k₁, v₁) :: rest) k v) = k₁ :: keys (emplace rest k v) := by
        simp [keys, emplace, hlt]
      rw [this]
      refine List.nodup_cons.mpr ⟨?_, ih hrest hnd'.2⟩
      rw [mem_keys_emplace]
      rintro (h1 | h1)
      · exact hk h1
      · exact hnd'.1 h1

end StdMap

section Generic

variable {R : Type} [LinearOrderedField R]

/-! ## Lookups in `jointMotions` and `calibrationData` -/

/-- The nested subscript on present keys reads the value and leaves `jointMotions` as it is. -/
theorem dict_index2_of_present (jm : Dict R) (motionName key : String)
    (inner : StdMap (Variant R)) (v : Variant R)
    (h₁ : StdMap.find jm motionName = some inner) (h₂ : StdMap.find inner key = some v) :
    Dict.index2 jm motionName key = (v, jm) := by
  simp [Dict.index2, StdMap.index_of_find_some _ _ _ _ h₁, StdMap.index_of_find_some _ _ _ _ h₂,
    StdMap.assign_of_find_some _ _ _ h₁]

/-- The nested subscript on present keys reads the value and leaves `calibrationData` as it is. -/
theorem calData_index2_of_present {R : Type} [LinearOrderedField R] (cd : CalData R)
    (motionName key : String) (inner : StdMap (CalVariant R)) (v : CalVariant R)
    (h₁ : StdMap.find cd motionName = some inner) (h₂ : StdMap.find inner key = some v) :
    CalData.index2 cd motionName key = (v, cd) := by
  simp [CalData.index2, StdMap.index_of_find_some _ _ _ _ h₁,
    StdMap.index_of_find_some _ _ _ _ h₂, StdMap.assign_of_find_some _ _ _ h₁]

/-- The catalogue has no motion `wrist_flexion`. -/
theorem find_jointMotions_wrist (R : Type) [LinearOrderedField R] :
    StdMap.find (jointMotions R) "wrist_flexion" = none := by
  simp [StdMap.find, jointMotions]

/-- On a motion name with no entry in the catalogue, `maxJointTorque` runs the Newton loop with
the fatigue ratio `0` of the entry the subscript creates; the handler of its `try` is not
entered. -/
theorem maxJointTorque_of_absent (log : R → R) (jm : Dict R) (motionName : String) (T A : R)
    (h : StdMap.find jm motionName = none) :
    (maxJointTorque log jm motionName T A).1 = newtonLoop log 0 T A maxIts initValue := by
  simp [maxJointTorque, Dict.index2, StdMap.index, h, StdMap.find, Variant.init, getDouble]

/-- On a catalogued motion `maxJointTorque` is the Newton loop with the motion's fatigue ratio,
started at `x₀`, and leaves `jointMotions` as it is. -/
theorem maxJointTorque_of_present (log : R → R) (jm : Dict R) (motionName : String)
    (inner : StdMap (Variant R)) (lamF T A : R)
    (hcat : StdMap.find jm motionName = some inner)
    (hfr : StdMap.find inner "f_ratio" = some (Variant.dbl lamF)) :
    maxJointTorque log jm motionName T A
      = (newtonLoop log lamF T A maxIts (newtonSeq log lamF T A 0), jm) := by
  simp [maxJointTorque, dict_index2_of_present jm motionName _ inner _ hcat hfr, getDouble,
    newtonSeq, initValue]

/-! ## Vector subscripts -/

/-- A subscript inside the bounds reads the element. -/
theorem vecAt_of_lt {α : Type} (l : List α) (i : Nat) (h : i < l.length) :
    vecAt l i = Except.ok l[i] := by
  simp [vecAt, List.getElem?_eq_getElem h]

/-- A subscript past the end is reported as out of bounds. -/
theorem vecAt_of_le {α : Type} (l : List α) (i : Nat) (h : l.length ≤ i) :
    vecAt l i = Except.error Exn.out_of_bounds := by
  simp [vecAt, List.getElem?_eq_none h]

/-- A subscript inside the bounds reads the element. -/
theorem vecAt_of_getElem? {α : Type} (l : List α) (i : Nat) (x : α) (h : l[i]? = some x) :
    vecAt l i = Except.ok x := by
  simp [vecAt, h]

/-- An index inside the bounds holds an element. -/
theorem exists_getElem?_of_lt {α : Type} (l : List α) (i : Nat) (h : i < l.length) :
    ∃ x, l[i]? = some x := ⟨l[i], List.getElem?_eq_getElem h⟩

/-! ## The loops of `musclesMvc` and `musclesFatigueRatio` -/

/-- The first loop of `musclesMvc` computes the weighted sum of the remaining indices, a muscle
without a moment arm counting with arm `0`; it raises no exception on lists of equal length. -/
theorem sumPropXArmsLoop_eq (muscles : List String) (proportions : List R)
    (arms0 : StdMap R) (hlen : muscles.length = proportions.length) :
    ∀ (n i : Nat) (s : R) (arms : StdMap R),
      i + n = muscles.length →
      (∀ m, armOf arms m = armOf arms0 m) →
      sumPropXArmsLoop muscles proportions n i s arms
        = Except.ok (s + (List.zipWith (fun p m => p * armOf arms0 m)
            (proportions.drop i) (muscles.drop i)).sum) := by
  intro n
  induction n with
  | zero =>
    intro i s arms hi _
    have h1 : muscles.length ≤ i := by omega
    simp [sumPropXArmsLoop, List.drop_of_length_le h1]
  | succ n ih =>
    intro i s arms hi harms
    have hm : i < muscles.length := by omega
    have hp : i < proportions.length := by omega
    rw [sumPropXArmsLoop, vecAt_of_lt _ _ hp, vecAt_of_lt _ _ hm]
    simp only
    rw [ih (i + 1) _ _ (by omega)
      (fun m => by
        rw [← harms m]
        exact StdMap.find_index_snd_getD 0 arms muscles[i] m)]
    have h0 : (StdMap.index 0 arms muscles[i]).1 = armOf arms0 muscles[i] := by
      rw [StdMap.index_fst, ← harms]; rfl
    rw [List.drop_eq_getElem_cons hm, List.drop_eq_getElem_cons hp, List.zipWith_cons_cons,
      List.sum_cons, h0, add_assoc]

/-- Closed form of `musclesMvc` on a catalogued motion with lists of equal length: every MVC is
`(maxJointTorque / weightedSum) * proportion`, nothing is printed and `jointMotions` is left as
it is, whether or not every muscle has a moment arm. -/
theorem musclesMvc_eq (jm : Dict R) (motionName : String) (inner : StdMap (Variant R))
    (muscles : List String) (proportions : List R) (tau : R) (momentArms : StdMap R)
    (hcat : StdMap.find jm motionName = some inner)
    (hmus : StdMap.find inner "muscles" = some (Variant.strs muscles))
    (hprop : StdMap.find inner "proportion" = some (Variant.dbls proportions))
    (hlen : muscles.length = proportions.length) :
    musclesMvc jm motionName tau momentArms
      = (⟨Except.ok (proportions.map
            (fun p => tau / weightedSum muscles proportions momentArms * p)), []⟩, jm) := by
  simp only [musclesMvc, dict_index2_of_present jm motionName _ inner _ hcat hmus,
    dict_index2_of_present jm motionName _ inner _ hcat hprop, getStrings, getDoubles]
  rw [sumPropXArmsLoop_eq muscles proportions momentArms hlen _ 0 0 momentArms (by simp)
    (fun _ => rfl)]
  simp [weightedSum]

/-- The loop of `musclesFatigueRatio` stops with the empty result at the first index whose
force is not below its MVC. -/
theorem fatigueLoop_of_violation (log : R → R) (mvcs forces areas : List R)
    (hf : forces.length = mvcs.length) (ha : areas.length = mvcs.length) :
    ∀ (n i : Nat) (acc : List R), i + n = mvcs.length →
      (∃ j f m, i ≤ j ∧ forces[j]? = some f ∧ mvcs[j]? = some m ∧ f ≥ m) →
      fatigueLoop log mvcs forces areas n i acc = ⟨Except.ok [], [Diag.forceNotBelowMvc]⟩ := by
  intro n
  induction n with
  | zero =>
    intro i acc hi ⟨j, f, m, hij, _, hm, _⟩
    have : j < mvcs.length := by
      by_contra hc
      rw [List.getElem?_eq_none (by omega)] at hm
      cases hm
    omega
  | succ n ih =>
    intro i acc hi ⟨j, f, m, hij, hfj, hmj, hge⟩
    obtain ⟨fi, hfi⟩ := exists_getElem?_of_lt forces i (by omega)
    obtain ⟨mi, hmi⟩ := exists_getElem?_of_lt mvcs i (by omega)
    obtain ⟨ai, hai⟩ := exists_getElem?_of_lt areas i (by omega)
    rw [fatigueLoop, vecAt_of_getElem? _ _ _ hfi, vecAt_of_getElem? _ _ _ hmi,
      vecAt_of_getElem? _ _ _ hai]
    simp only
    by_cases hv : fi ≥ mi
    · rw [if_pos hv]
    · rw [if_neg hv]
      apply ih (i + 1) _ (by omega)
      refine ⟨j, f, m, ?_, hfj, hmj, hge⟩
      rcases Nat.eq_or_lt_of_le hij with h | h
      · subst h
        rw [hfi] at hfj
        rw [hmi] at hmj
        cases hfj
        cases hmj
        exact absurd hge hv
      · exact h

/-- The loop of `musclesFatigueRatio` pushes one ratio per index while every force is below
its MVC. -/
theorem fatigueLoop_of_valid (log : R → R) (mvcs forces areas : List R)
    (hf : forces.length = mvcs.length) (ha : areas.length = mvcs.length)
    (hvalid : ∀ (i : Nat) (f m : R), forces[i]? = some f → mvcs[i]? = some m → f < m) :
    ∀ (n i : Nat) (acc : List R), i + n = mvcs.length → acc.length = i →
      (∀ j f m a, j < i → forces[j]? = some f → mvcs[j]? = some m → areas[j]? = some a →
        acc[j]? = some (-log (f / m) * m / a)) →
      ∃ ratios : List R, fatigueLoop log mvcs forces areas n i acc = ⟨Except.ok ratios, []⟩ ∧
        ratios.length = mvcs.length ∧
        ∀ (j : Nat) (f m a : R), forces[j]? = some f → mvcs[j]? = some m → areas[j]? = some a →
          ratios[j]? = some (-log (f / m) * m / a) := by
  intro n
  induction n with
  | zero =>
    intro i acc hi hlen hacc
    refine ⟨acc, rfl, by omega, ?_⟩
    intro j f m a hfj hmj haj
    have : j < mvcs.length := by
      by_contra hc
      rw [List.getElem?_eq_none (by omega)] at hmj
      cases hmj
    exact hacc j f m a (by omega) hfj hmj haj
  | succ n ih =>
    intro i acc hi hlen hacc
    obtain ⟨fi, hfi⟩ := exists_getElem?_of_lt forces i (by omega)
    obtain ⟨mi, hmi⟩ := exists_getElem?_of_lt mvcs i (by omega)
    obtain ⟨ai, hai⟩ := exists_getElem?_of_lt areas i (by omega)
    rw [fatigueLoop, vecAt_of_getElem? _ _ _ hfi, vecAt_of_getElem? _ _ _ hmi,
      vecAt_of_getElem? _ _ _ hai]
    simp only
    rw [if_neg (not_le.mpr (hvalid i fi mi hfi hmi))]
    apply ih (i + 1) _ (by omega) (by simp [hlen])
    intro j f m a hj hfj hmj haj
    rcases Nat.lt_succ_iff_lt_or_eq.mp hj with h | h
    · rw [List.getElem?_append_left (by omega)]
      exact hacc j f m a h hfj hmj haj
    · subst h
      rw [hfi] at hfj
      rw [hmi] at hmj
      rw [hai] at haj
      cases hfj
      cases hmj
      cases haj
      rw [List.getElem?_append_right (by omega)]
      simp [hlen]

/-! ## The loop of `maxJointTorque` and the Newton sequence -/

/-- The update of the loop body is the Newton step `x - f(x)/f'(x)` of the specification. -/
theorem newtonUpdate_eq (log : R → R) (lamF T A x : R) :
    newtonUpdate log lamF T A x = x - modelF log lamF T A x / modelF' lamF A x := by
  simp [newtonUpdate, modelF, modelF', pow_two]

/-- The update of the loop body maps `x_k` to `x_{k+1}`. -/
theorem newtonUpdate_newtonSeq (log : R → R) (lamF T A : R) (k : Nat) :
    newtonUpdate log lamF T A (newtonSeq log lamF T A k) = newtonSeq log lamF T A (k + 1) := by
  rw [newtonUpdate_eq]
  rfl

/-- The tolerance `delta` is `1e-9`. -/
theorem delta_eq : (delta : R) = 1e-9 := by
  norm_num [delta]

/-- One iteration of the loop started at `x_k`. -/
theorem newtonLoop_succ (log : R → R) (lamF T A : R) (n k : Nat) :
    newtonLoop log lamF T A (n + 1) (newtonSeq log lamF T A k)
      = if converged log lamF T A k then ⟨Except.ok (newtonSeq log lamF T A (k + 1)), []⟩
        else newtonLoop log lamF T A n (newtonSeq log lamF T A (k + 1)) := by
  rw [newtonLoop]
  simp only [newtonUpdate_newtonSeq, delta_eq, converged]

/-- The loop returns the iterate that follows the first step passing the convergence test. -/
theorem newtonLoop_of_first_converged (log : R → R) (lamF T A : R) :
    ∀ (n k j : Nat), j < n → converged log lamF T A (k + j) →
      (∀ m, m < j → ¬ converged log lamF T A (k + m)) →
      newtonLoop log lamF T A n (newtonSeq log lamF T A k)
        = ⟨Except.ok (newtonSeq log lamF T A (k + j + 1)), []⟩ := by
  intro n
  induction n with
  | zero => intro k j hj; omega
  | succ n ih =>
    intro k j hj hc hfirst
    rw [newtonLoop_succ]
    cases j with
    | zero => rw [if_pos (by simpa using hc)]
    | succ j =>
      rw [if_neg (by simpa using hfirst 0 (Nat.succ_pos j))]
      rw [ih (k + 1) j (by omega) (by simpa [Nat.add_assoc, Nat.add_comm 1 j] using hc)
        (fun m hm => by
          have := hfirst (m + 1) (by omega)
          simpa [Nat.add_assoc, Nat.add_comm 1 m] using this)]
      simp [Nat.add_assoc, Nat.add_comm 1 j]

/-- The loop ends in the convergence failure when no step passes the convergence test. -/
theorem newtonLoop_of_none_converged (log : R → R) (lamF T A : R) :
    ∀ (n k : Nat), (∀ j, j < n → ¬ converged log lamF T A (k + j)) →
      newtonLoop log lamF T A n (newtonSeq log lamF T A k)
        = ⟨Except.ok (-1), [Diag.noConvergence]⟩ := by
  intro n
  induction n with
  | zero => intro k _; rfl
  | succ n ih =>
    intro k hnone
    rw [newtonLoop_succ, if_neg (by simpa using hnone 0 (Nat.succ_pos n))]
    exact ih (k + 1) (fun j hj => by
      have := hnone (j + 1) (by omega)
      simpa [Nat.add_assoc, Nat.add_comm 1 j] using this)

/-! ## The store loop and the motion loop of `main` -/

/-- The test `count(k) > 0` holds exactly for the keys present. -/
theorem count_pos_iff {V : Type} (m : StdMap V) (k : String) :
    StdMap.count m k > 0 ↔ ∃ v, StdMap.find m k = some v := by
  cases h : StdMap.find m k <;> simp [StdMap.count, h]

/-- What one pass of the store loop does: a muscle already present leaves the map as it is;
a muscle not yet present gets the entry `[musclesMvcList[i], musclesFatigueRatioList[i]]`. -/
theorem storeBody_ok (muscles : List String) (mvcs frs : List R) (i : Nat)
    (mp mp' : StdMap (List R)) (h : storeBody muscles mvcs frs i mp = Except.ok mp') :
    ∃ muscle, muscles[i]? = some muscle ∧
      ((∃ e, StdMap.find mp muscle = some e ∧ mp' = mp) ∨
       (StdMap.find mp muscle = none ∧ ∃ a b, mvcs[i]? = some a ∧ frs[i]? = some b ∧
          mp' = StdMap.emplace mp muscle [a, b])) := by
  unfold storeBody at h
  cases hm : muscles[i]? with
  | none => simp [vecAt, hm] at h
  | some muscle =>
    refine ⟨muscle, rfl, ?_⟩
    simp only [vecAt, hm] at h
    cases hfind : StdMap.find mp muscle with
    | some e =>
      left
      refine ⟨e, rfl, ?_⟩
      have hc : StdMap.count mp muscle > 0 := (count_pos_iff mp muscle).mpr ⟨e, hfind⟩
      rw [if_pos hc, StdMap.index_of_find_some _ _ _ _ hfind] at h
      simp only at h
      cases he : e[0]? with
      | none => simp [he] at h
      | some prevMvc =>
        cases ha : mvcs[i]? with
        | none => simp [he, ha] at h
        | some a =>
          simp only [he, ha] at h
          by_cases hgt : prevMvc > a
          · rw [if_pos hgt] at h
            cases h
            rfl
          · rw [if_neg hgt] at h
            unfold storeInsert at h
            simp only [vecAt, ha] at h
            cases hb : frs[i]? with
            | none => simp [hb] at h
            | some b =>
              simp only [hb, StdMap.insert_of_find_some _ _ _ _ hfind] at h
              cases h
              rfl
    | none =>
      right
      refine ⟨rfl, ?_⟩
      have hc : ¬ StdMap.count mp muscle > 0 := by
        rw [count_pos_iff]
        simp [hfind]
      rw [if_neg hc] at h
      unfold storeInsert at h
      cases ha : mvcs[i]? with
      | none => simp [vecAt, ha] at h
      | some a =>
        cases hb : frs[i]? with
        | none => simp [vecAt, ha, hb] at h
        | some b =>
          simp only [vecAt, ha, hb, StdMap.insert_of_find_none _ _ _ hfind] at h
          cases h
          exact ⟨a, b, rfl, rfl, rfl⟩

/-- Where an entry of the map after one pass of the store loop comes from. -/
theorem storeBody_find (muscles : List String) (mvcs frs : List R) (i : Nat)
    (mp mp' : StdMap (List R)) (h : storeBody muscles mvcs frs i mp = Except.ok mp')
    (k : String) (e : List R) (hk : StdMap.find mp' k = some e) :
    StdMap.find mp k = some e ∨
      ∃ a b, muscles[i]? = some k ∧ mvcs[i]? = some a ∧ frs[i]? = some b ∧ e = [a, b] := by
  obtain ⟨muscle, hm, hcase⟩ := storeBody_ok muscles mvcs frs i mp mp' h
  rcases hcase with ⟨_, _, rfl⟩ | ⟨hnone, a, b, ha, hb, rfl⟩
  · exact Or.inl hk
  · by_cases hkm : muscle = k
    · subst hkm
      rw [StdMap.find_emplace_self _ _ _ hnone] at hk
      cases hk
      exact Or.inr ⟨a, b, hm, ha, hb, rfl⟩
    · rw [StdMap.find_emplace_ne _ _ _ _ hkm] at hk
      exact Or.inl hk

/-- Where an entry of the map after the store loop comes from. -/
theorem storeLoop_find (muscles : List String) (mvcs frs : List R) :
    ∀ (n i : Nat) (mp mp' : StdMap (List R)),
      storeLoop muscles mvcs frs n i mp = Except.ok mp' →
      ∀ (k : String) (e : List R), StdMap.find mp' k = some e →
        StdMap.find mp k = some e ∨
          ∃ (j : Nat) (a b : R), muscles[j]? = some k ∧ mvcs[j]? = some a ∧
            frs[j]? = some b ∧ e = [a, b] := by
  intro n
  induction n with
  | zero =>
    intro i mp mp' h k e hk
    simp only [storeLoop, Except.ok.injEq] at h
    subst h
    exact Or.inl hk
  | succ n ih =>
    intro i mp mp' h k e hk
    rw [storeLoop] at h
    cases hb : storeBody muscles mvcs frs i mp with
    | error x => simp [hb] at h
    | ok mp1 =>
      simp only [hb] at h
      rcases ih (i + 1) mp1 mp' h k e hk with h1 | h1
      · rcases storeBody_find muscles mvcs frs i mp mp1 hb k e h1 with h2 | ⟨a, b, h2⟩
        · exact Or.inl h2
        · exact Or.inr ⟨i, a, b, h2⟩
      · exact Or.inr h1

/-- Where an entry of the map after the store loops of a sequence of motions comes from. -/
theorem aggregate_find (rs : List (MotionResult R)) :
    ∀ (mp mp' : StdMap (List R)), aggregate mp rs = Except.ok mp' →
      ∀ (k : String) (e : List R), StdMap.find mp' k = some e →
        StdMap.find mp k = some e ∨
          ∃ r ∈ rs, ∃ (i : Nat) (a b : R), r.muscles[i]? = some k ∧
            r.musclesMvcList[i]? = some a ∧ r.musclesFatigueRatioList[i]? = some b ∧
            e = [a, b] := by
  induction rs with
  | nil =>
    intro mp mp' h k e hk
    simp only [aggregate, Except.ok.injEq] at h
    subst h
    exact Or.inl hk
  | cons r rest ih =>
    intro mp mp' h k e hk
    rw [aggregate] at h
    cases hs : store mp r with
    | error x => simp [hs] at h
    | ok mp1 =>
      simp only [hs] at h
      rcases ih mp1 mp' h k e hk with h1 | ⟨r', hr', hrest⟩
      · rcases storeLoop_find _ _ _ _ _ _ _ hs k e h1 with h2 | ⟨j, a, b, h2⟩
        · exact Or.inl h2
        · exact Or.inr ⟨r, List.mem_cons_self _ _, j, a, b, h2⟩
      · exact Or.inr ⟨r', List.mem_cons_of_mem _ hr', hrest⟩

/-- A pass of the motion loop that lets the loop go on has changed `musclesParameters` by the
store loop alone, run on the lists that steps 1 to 3 computed for the motion. -/
theorem mainBody_next (log : R → R) (motionName : String) (s s1 : MainState R)
    (h : mainBody log motionName s = Except.ok (Flow.next s1)) :
    ∃ r : MotionResult R, mainSteps log motionName s.env = Except.ok (some r, s1.env) ∧
      store s.musclesParameters r = Except.ok s1.musclesParameters := by
  unfold mainBody at h
  cases hsteps : mainSteps log motionName s.env with
  | error e => simp [hsteps] at h
  | ok p =>
    obtain ⟨o, env1⟩ := p
    cases o with
    | none => simp [hsteps] at h
    | some r =>
      simp only [hsteps] at h
      cases hstore : store s.musclesParameters r with
      | error e => simp [hstore] at h
      | ok mp =>
        simp only [hstore, Except.ok.injEq, Flow.next.injEq] at h
        subst h
        exact ⟨r, rfl, hstore⟩

/-- A pass of the motion loop that makes `main` return leaves `musclesParameters` as it
was. -/
theorem mainBody_returned (log : R → R) (motionName : String) (s s1 : MainState R)
    (h : mainBody log motionName s = Except.ok (Flow.returned s1)) :
    s1.musclesParameters = s.musclesParameters := by
  unfold mainBody at h
  cases hsteps : mainSteps log motionName s.env with
  | error e => simp [hsteps] at h
  | ok p =>
    obtain ⟨o, env1⟩ := p
    cases o with
    | none =>
      simp only [hsteps, Except.ok.injEq, Flow.returned.injEq] at h
      subst h
      rfl
    | some r =>
      simp only [hsteps] at h
      cases hstore : store s.musclesParameters r with
      | error e => simp [hstore] at h
      | ok mp => simp [hstore] at h

/-- The `musclesParameters` that the motion loop of `main` ends with is the result of the
store loop run, in order, over the lists that steps 1 to 3 computed for the motions
processed. -/
theorem mainLoop_aggregate (log : R → R) :
    ∀ (names : List String) (s s' : MainState R), mainLoop log names s = Except.ok s' →
      ∃ rs : List (MotionResult R),
        aggregate s.musclesParameters rs = Except.ok s'.musclesParameters ∧
        ∀ r ∈ rs, ∃ name ∈ names, ∃ env env' : Env R,
          mainSteps log name env = Except.ok (some r, env') := by
  intro names
  induction names with
  | nil =>
    intro s s' h
    simp only [mainLoop, Except.ok.injEq] at h
    subst h
    exact ⟨[], rfl, by simp⟩
  | cons name rest ih =>
    intro s s' h
    rw [mainLoop] at h
    cases hb : mainBody log name s with
    | error e => simp [hb] at h
    | ok fl =>
      cases fl with
      | returned s1 =>
        simp only [hb, Except.ok.injEq] at h
        subst h
        exact ⟨[], by rw [mainBody_returned log name s s1 hb]; rfl, by simp⟩
      | next s1 =>
        simp only [hb] at h
        obtain ⟨r, hsteps, hr⟩ := mainBody_next log name s s1 hb
        obtain ⟨rs, hrs, hfrom⟩ := ih s1 s' h
        refine ⟨r :: rs, by simp [aggregate, hr, hrs], ?_⟩
        intro r' hr'
        rcases List.mem_cons.mp hr' with rfl | hmem
        · exact ⟨name, List.mem_cons_self _ _, s.env, s1.env, hsteps⟩
        · obtain ⟨n, hn, hrest⟩ := hfrom r' hmem
          exact ⟨n, List.mem_cons_of_mem _ hn, hrest⟩

/-- Every entry of the `musclesParameters` that `main` ends with is
`[musclesMvcList[i], musclesFatigueRatioList[i]]` of the lists that steps 1 to 3 computed for
one motion of `calibrationData`, at an index `i` holding the entry's muscle. -/
theorem main_entry_from_one_motion (log : R → R) (jm : Dict R) (cd : CalData R)
    (s : MainState R) (muscle : String) (entry : List R)
    (hrun : main log jm cd = Except.ok s)
    (hentry : StdMap.find s.musclesParameters muscle = some entry) :
    ∃ name ∈ StdMap.keys cd, ∃ (env env' : Env R) (r : MotionResult R),
      mainSteps log name env = Except.ok (some r, env') ∧
      ∃ (i : Nat) (mvc fr : R), r.muscles[i]? = some muscle ∧
        r.musclesMvcList[i]? = some mvc ∧ r.musclesFatigueRatioList[i]? = some fr ∧
        entry = [mvc, fr] := by
  obtain ⟨rs, hagg, hfrom⟩ := mainLoop_aggregate log _ _ _ hrun
  rcases aggregate_find rs _ _ hagg muscle entry hentry with h | ⟨r, hr, hi⟩
  · simp [StdMap.find] at h
  · obtain ⟨name, hname, env, env', hsteps⟩ := hfrom r hr
    exact ⟨name, hname, env, env', r, hsteps, hi⟩

/-! ## Further facts about the loops -/

/-- The update of the loop body is `x` minus the quotient of its numerator and denominator. -/
theorem newtonUpdate_eq_quotient (log : R → R) (lamF T A x : R) :
    newtonUpdate log lamF T A x
      = x - updateNumerator log lamF T A x / updateDenominator lamF A x := rfl

/-- The loop started at `x_k` with `n` iterations left either ends in the convergence failure
or returns one of the iterates `x_{k+1}, …, x_{k+n}`. -/
theorem newtonLoop_result (log : R → R) (lamF T A : R) :
    ∀ (n k : Nat),
      newtonLoop log lamF T A n (newtonSeq log lamF T A k)
          = ⟨Except.ok (-1), [Diag.noConvergence]⟩ ∨
        ∃ j, j < n ∧ newtonLoop log lamF T A n (newtonSeq log lamF T A k)
          = ⟨Except.ok (newtonSeq log lamF T A (k + j + 1)), []⟩ := by
  intro n
  induction n with
  | zero => intro k; exact Or.inl rfl
  | succ n ih =>
    intro k
    rw [newtonLoop_succ]
    by_cases hc : converged log lamF T A k
    · rw [if_pos hc]
      exact Or.inr ⟨0, Nat.succ_pos n, rfl⟩
    · rw [if_neg hc]
      rcases ih (k + 1) with h | ⟨j, hj, h⟩
      · exact Or.inl h
      · refine Or.inr ⟨j + 1, by omega, ?_⟩
        rw [h]
        simp [Nat.add_assoc, Nat.add_comm 1 j]

/-- The weighted sum of positive proportions and positive arms over a non-empty list of
muscles is positive. -/
theorem weightedSum_pos (momentArms : StdMap R) :
    ∀ (muscles : List String) (proportions : List R), muscles ≠ [] →
      muscles.length = proportions.length →
      (∀ p ∈ proportions, 0 < p) → (∀ m ∈ muscles, 0 < armOf momentArms m) →
      0 < weightedSum muscles proportions momentArms := by
  intro muscles
  induction muscles with
  | nil => intro _ h; exact absurd rfl h
  | cons m ms ih =>
    intro proportions _ hlen hp ha
    cases proportions with
    | nil => simp at hlen
    | cons p ps =>
      have hp0 : 0 < p := hp p (List.mem_cons_self _ _)
      have ha0 : 0 < armOf momentArms m := ha m (List.mem_cons_self _ _)
      have hhead : 0 < p * armOf momentArms m := mul_pos hp0 ha0
      simp only [weightedSum, List.zipWith_cons_cons, List.sum_cons]
      cases ms with
      | nil =>
        cases ps with
        | nil => simpa using hhead
        | cons _ _ => simp at hlen
      | cons m' ms' =>
        have := ih ps (by simp) (by simpa using hlen)
          (fun q hq => hp q (List.mem_cons_of_mem _ hq))
          (fun q hq => ha q (List.mem_cons_of_mem _ hq))
        simp only [weightedSum] at this
        linarith

/-- Scaling the proportions by `c` scales the weighted sum by `c`. -/
theorem sum_zipWith_map_mul (g : String → R) (c : R) :
    ∀ (proportions : List R) (muscles : List String),
      (List.zipWith (fun v m => v * g m) (proportions.map (fun p => c * p)) muscles).sum
        = c * (List.zipWith (fun p m => p * g m) proportions muscles).sum := by
  intro proportions
  induction proportions with
  | nil => intro muscles; simp
  | cons p ps ih =>
    intro muscles
    cases muscles with
    | nil => simp
    | cons m ms =>
      simp only [List.map_cons, List.zipWith_cons_cons, List.sum_cons, ih ms]
      ring

/-- Every ratio in a result that `musclesFatigueRatio` returns without a diagnostic was
computed, at its index, from a force below the MVC by the formula of the loop body. -/
theorem fatigueLoop_ok_inv (log : R → R) (mvcs forces areas : List R) :
    ∀ (n i : Nat) (acc ratios : List R),
      fatigueLoop log mvcs forces areas n i acc = ⟨Except.ok ratios, []⟩ → acc.length = i →
      (∀ (j : Nat) (r : R), acc[j]? = some r → ∃ f m a : R, forces[j]? = some f ∧
        mvcs[j]? = some m ∧ areas[j]? = some a ∧ f < m ∧ r = -log (f / m) * m / a) →
      ∀ (j : Nat) (r : R), ratios[j]? = some r → ∃ f m a : R, forces[j]? = some f ∧
        mvcs[j]? = some m ∧ areas[j]? = some a ∧ f < m ∧ r = -log (f / m) * m / a := by
  intro n
  induction n with
  | zero =>
    intro i acc ratios h _ hacc
    simp only [fatigueLoop, Out.mk.injEq, Except.ok.injEq, and_true] at h
    subst h
    exact hacc
  | succ n ih =>
    intro i acc ratios h hlen hacc
    rw [fatigueLoop] at h
    cases hf : forces[i]? with
    | none => simp [vecAt, hf] at h
    | some f =>
      cases hm : mvcs[i]? with
      | none => simp [vecAt, hf, hm] at h
      | some m =>
        cases ha : areas[i]? with
        | none => simp [vecAt, hf, hm, ha] at h
        | some a =>
          simp only [vecAt, hf, hm, ha] at h
          by_cases hv : f ≥ m
          · rw [if_pos hv] at h
            simp at h
          · rw [if_neg hv] at h
            apply ih (i + 1) _ ratios h (by simp [hlen])
            intro j r hj
            by_cases hji : j < i
            · rw [List.getElem?_append_left (by omega)] at hj
              exact hacc j r hj
            · have hge : acc.length ≤ j := by omega
              rw [List.getElem?_append_right hge] at hj
              have hj0 : j - acc.length = 0 := by
                by_contra hne
                rw [List.getElem?_eq_none (by simp; omega)] at hj
                cases hj
              rw [hj0] at hj
              simp only [List.getElem?_cons_zero, Option.some.injEq] at hj
              have hji' : j = i := by omega
              subst hji'
              refine ⟨f, m, a, hf, hm, ha, not_le.mp hv, ?_⟩
              rw [← hj]
              ring

/-! ## Keys and entries under the store loop -/

/-- One pass of the store loop keeps every entry that is already stored. -/
theorem storeBody_preserves (muscles : List String) (mvcs frs : List R) (i : Nat)
    (mp mp' : StdMap (List R)) (h : storeBody muscles mvcs frs i mp = Except.ok mp')
    (k : String) (e : List R) (hk : StdMap.find mp k = some e) :
    StdMap.find mp' k = some e := by
  obtain ⟨muscle, _, hcase⟩ := storeBody_ok muscles mvcs frs i mp mp' h
  rcases hcase with ⟨_, _, rfl⟩ | ⟨hnone, a, b, _, _, rfl⟩
  · exact hk
  · have hne : muscle ≠ k := by
      intro heq
      rw [heq, hk] at hnone
      cases hnone
    rw [StdMap.find_emplace_ne _ _ _ _ hne]
    exact hk

/-- The store loop keeps every entry that is already stored. -/
theorem storeLoop_preserves (muscles : List String) (mvcs frs : List R) :
    ∀ (n i : Nat) (mp mp' : StdMap (List R)),
      storeLoop muscles mvcs frs n i mp = Except.ok mp' →
      ∀ (k : String) (e : List R), StdMap.find mp k = some e → StdMap.find mp' k = some e := by
  intro n
  induction n with
  | zero =>
    intro i mp mp' h k e hk
    simp only [storeLoop, Except.ok.injEq] at h
    subst h
    exact hk
  | succ n ih =>
    intro i mp mp' h k e hk
    rw [storeLoop] at h
    cases hb : storeBody muscles mvcs frs i mp with
    | error x => simp [hb] at h
    | ok mp1 =>
      simp only [hb] at h
      exact ih (i + 1) mp1 mp' h k e (storeBody_preserves muscles mvcs frs i mp mp1 hb k e hk)

/-- The store loop gives a muscle without an entry the pair of the first index, among those
still to visit, that holds the muscle. -/
theorem storeLoop_first_occurrence (muscles : List String) (mvcs frs : List R) (k : String)
    (j₀ : Nat) (a b : R) (hj₀ : muscles[j₀]? = some k) (ha : mvcs[j₀]? = some a)
    (hb : frs[j₀]? = some b) :
    ∀ (n i : Nat) (mp mp' : StdMap (List R)),
      storeLoop muscles mvcs frs n i mp = Except.ok mp' → i ≤ j₀ → j₀ < i + n →
      StdMap.find mp k = none → (∀ j, i ≤ j → j < j₀ → muscles[j]? ≠ some k) →
      StdMap.find mp' k = some [a, b] := by
  intro n
  induction n with
  | zero => intro i mp mp' _ h1 h2; omega
  | succ n ih =>
    intro i mp mp' h hi hlt hnone hfirst
    rw [storeLoop] at h
    cases hbody : storeBody muscles mvcs frs i mp with
    | error x => simp [hbody] at h
    | ok mp1 =>
      simp only [hbody] at h
      obtain ⟨muscle, hm, hcase⟩ := storeBody_ok muscles mvcs frs i mp mp1 hbody
      rcases Nat.eq_or_lt_of_le hi with heq | hlt'
      · subst heq
        rw [hj₀] at hm
        cases hm
        rcases hcase with ⟨e, he, _⟩ | ⟨_, a', b', ha', hb', rfl⟩
        · rw [he] at hnone
          cases hnone
        · rw [ha] at ha'
          rw [hb] at hb'
          cases ha'
          cases hb'
          exact storeLoop_preserves muscles mvcs frs n (i + 1) _ mp' h k [a, b]
            (StdMap.find_emplace_self _ _ _ hnone)
      · have hne : muscle ≠ k := by
          intro heq
          exact hfirst i (le_refl i) hlt' (by rw [hm, heq])
        have hnone1 : StdMap.find mp1 k = none := by
          rcases hcase with ⟨_, _, rfl⟩ | ⟨_, a', b', _, _, rfl⟩
          · exact hnone
          · rw [StdMap.find_emplace_ne _ _ _ _ hne]
            exact hnone
        exact ih (i + 1) mp1 mp' h (by omega) (by omega) hnone1
          (fun j hj hjlt => hfirst j (by omega) hjlt)

/-- The keys after one pass of the store loop: those before it and the muscle visited; they
stay distinct. -/
theorem storeBody_keys (muscles : List String) (mvcs frs : List R) (i : Nat)
    (mp mp' : StdMap (List R)) (h : storeBody muscles mvcs frs i mp = Except.ok mp') :
    ∃ muscle, muscles[i]? = some muscle ∧
      (∀ k, k ∈ StdMap.keys mp' ↔ k = muscle ∨ k ∈ StdMap.keys mp) ∧
      ((StdMap.keys mp).Nodup → (StdMap.keys mp').Nodup) := by
  obtain ⟨muscle, hm, hcase⟩ := storeBody_ok muscles mvcs frs i mp mp' h
  refine ⟨muscle, hm, ?_⟩
  rcases hcase with ⟨e, he, rfl⟩ | ⟨hnone, a, b, _, _, rfl⟩
  · refine ⟨fun k => ?_, id⟩
    constructor
    · exact Or.inr
    · rintro (rfl | hk)
      · exact (StdMap.mem_keys_iff _ _).mpr ⟨e, he⟩
      · exact hk
  · exact ⟨fun k => StdMap.mem_keys_emplace mp muscle k [a, b],
      StdMap.nodup_keys_emplace mp muscle [a, b] hnone⟩

/-- The keys after the store loop: those before it and the muscles visited; they stay
distinct. -/
theorem storeLoop_keys (muscles : List String) (mvcs frs : List R) :
    ∀ (n i : Nat) (mp mp' : StdMap (List R)),
      storeLoop muscles mvcs frs n i mp = Except.ok mp' → i + n = muscles.length →
      (∀ k, k ∈ StdMap.keys mp' ↔
        k ∈ StdMap.keys mp ∨ ∃ j : Nat, i ≤ j ∧ muscles[j]? = some k) ∧
      ((StdMap.keys mp).Nodup → (StdMap.keys mp').Nodup) := by
  intro n
  induction n with
  | zero =>
    intro i mp mp' h hi
    simp only [storeLoop, Except.ok.injEq] at h
    subst h
    refine ⟨fun k => ⟨Or.inl, ?_⟩, id⟩
    rintro (hk | ⟨j, hj, hjk⟩)
    · exact hk
    · rw [List.getElem?_eq_none (by omega)] at hjk
      cases hjk
  | succ n ih =>
    intro i mp mp' h hi
    rw [storeLoop] at h
    cases hbody : storeBody muscles mvcs frs i mp with
    | error x => simp [hbody] at h
    | ok mp1 =>
      simp only [hbody] at h
      obtain ⟨muscle, hm, hkeys1, hnd1⟩ := storeBody_keys muscles mvcs frs i mp mp1 hbody
      obtain ⟨hkeys, hnd⟩ := ih (i + 1) mp1 mp' h (by omega)
      refine ⟨fun k => ?_, fun h0 => hnd (hnd1 h0)⟩
      rw [hkeys k, hkeys1 k]
      constructor
      · rintro ((rfl | hk) | ⟨j, hj, hjk⟩)
        · exact Or.inr ⟨i, le_refl i, hm⟩
        · exact Or.inl hk
        · exact Or.inr ⟨j, by omega, hjk⟩
      · rintro (hk | ⟨j, hj, hjk⟩)
        · exact Or.inl (Or.inr hk)
        · rcases Nat.eq_or_lt_of_le hj with heq | hlt
          · subst heq
            rw [hm] at hjk
            cases hjk
            exact Or.inl (Or.inl rfl)
          · exact Or.inr ⟨j, hlt, hjk⟩

/-- The store loop leaves the map as it is when every muscle still to visit has an entry. -/
theorem storeLoop_unchanged (muscles : List String) (mvcs frs : List R) :
    ∀ (n i : Nat) (mp mp' : StdMap (List R)),
      storeLoop muscles mvcs frs n i mp = Except.ok mp' →
      (∀ (j : Nat) (k : String), i ≤ j → muscles[j]? = some k →
        ∃ e, StdMap.find mp k = some e) →
      mp' = mp := by
  intro n
  induction n with
  | zero =>
    intro i mp mp' h _
    simp only [storeLoop, Except.ok.injEq] at h
    exact h.symm
  | succ n ih =>
    intro i mp mp' h hall
    rw [storeLoop] at h
    cases hbody : storeBody muscles mvcs frs i mp with
    | error x => simp [hbody] at h
    | ok mp1 =>
      simp only [hbody] at h
      obtain ⟨muscle, hm, hcase⟩ := storeBody_ok muscles mvcs frs i mp mp1 hbody
      rcases hcase with ⟨_, _, rfl⟩ | ⟨hnone, _⟩
      · exact ih (i + 1) mp1 mp' h (fun j k hj hjk => hall j k (by omega) hjk)
      · obtain ⟨e, he⟩ := hall i muscle (le_refl i) hm
        rw [he] at hnone
        cases hnone

/-- The store loop of one motion leaves the map as it was exactly when every muscle of the
motion already had an entry. -/
theorem store_unchanged_iff (mp mp' : StdMap (List R)) (r : MotionResult R)
    (h : store mp r = Except.ok mp') :
    mp' = mp ↔ ∀ m ∈ r.muscles, ∃ e, StdMap.find mp m = some e := by
  constructor
  · intro heq m hm
    obtain ⟨j, hj⟩ := List.mem_iff_getElem?.mp hm
    have hkeys := (storeLoop_keys r.muscles r.musclesMvcList r.musclesFatigueRatioList
      r.muscles.length 0 mp mp' h (by simp)).1 m
    have : m ∈ StdMap.keys mp' := hkeys.mpr (Or.inr ⟨j, Nat.zero_le j, hj⟩)
    rw [heq] at this
    exact (StdMap.mem_keys_iff mp m).mp this
  · intro hall
    exact storeLoop_unchanged r.muscles r.musclesMvcList r.musclesFatigueRatioList
      r.muscles.length 0 mp mp' h
      (fun j k _ hjk => hall k (List.mem_iff_getElem?.mpr ⟨j, hjk⟩))

/-- The keys after the store loops of a sequence of motions: those before them and the
muscles of the motions; they stay distinct. -/
theorem aggregate_keys (rs : List (MotionResult R)) :
    ∀ (mp mp' : StdMap (List R)), aggregate mp rs = Except.ok mp' →
      (∀ k, k ∈ StdMap.keys mp' ↔ k ∈ StdMap.keys mp ∨ ∃ r ∈ rs, k ∈ r.muscles) ∧
      ((StdMap.keys mp).Nodup → (StdMap.keys mp').Nodup) := by
  induction rs with
  | nil =>
    intro mp mp' h
    simp only [aggregate, Except.ok.injEq] at h
    subst h
    exact ⟨fun k => by simp, id⟩
  | cons r rest ih =>
    intro mp mp' h
    rw [aggregate] at h
    cases hs : store mp r with
    | error x => simp [hs] at h
    | ok mp1 =>
      simp only [hs] at h
      obtain ⟨hkeys1, hnd1⟩ := storeLoop_keys r.muscles r.musclesMvcList
        r.musclesFatigueRatioList r.muscles.length 0 mp mp1 hs (by simp)
      obtain ⟨hkeys, hnd⟩ := ih mp1 mp' h
      refine ⟨fun k => ?_, fun h0 => hnd (hnd1 h0)⟩
      rw [hkeys k, hkeys1 k]
      constructor
      · rintro ((hk | ⟨j, _, hjk⟩) | ⟨r', hr', hk⟩)
        · exact Or.inl hk
        · exact Or.inr ⟨r, List.mem_cons_self _ _, List.mem_iff_getElem?.mpr ⟨j, hjk⟩⟩
        · exact Or.inr ⟨r', List.mem_cons_of_mem _ hr', hk⟩
      · rintro (hk | ⟨r', hr', hk⟩)
        · exact Or.inl (Or.inl hk)
        · rcases List.mem_cons.mp hr' with rfl | hmem
          · obtain ⟨j, hj⟩ := List.mem_iff_getElem?.mp hk
            exact Or.inl (Or.inr ⟨j, Nat.zero_le j, hj⟩)
          · exact Or.inr ⟨r', hmem, hk⟩

/-- The store loops of a sequence of motions keep every entry that is already stored. -/
theorem aggregate_preserves (rs : List (MotionResult R)) :
    ∀ (mp mp' : StdMap (List R)), aggregate mp rs = Except.ok mp' →
      ∀ (k : String) (e : List R), StdMap.find mp k = some e → StdMap.find mp' k = some e := by
  induction rs with
  | nil =>
    intro mp mp' h k e hk
    simp only [aggregate, Except.ok.injEq] at h
    subst h
    exact hk
  | cons r rest ih =>
    intro mp mp' h k e hk
    rw [aggregate] at h
    cases hs : store mp r with
    | error x => simp [hs] at h
    | ok mp1 =>
      simp only [hs] at h
      exact ih mp1 mp' h k e (storeLoop_preserves _ _ _ _ _ _ _ hs k e hk)

/-- A run of the store loops over `pre ++ post` is a run over `pre` followed by a run over
`post`. -/
theorem aggregate_append (pre post : List (MotionResult R)) :
    ∀ (mp mp' : StdMap (List R)), aggregate mp (pre ++ post) = Except.ok mp' →
      ∃ mp1, aggregate mp pre = Except.ok mp1 ∧ aggregate mp1 post = Except.ok mp' := by
  induction pre with
  | nil => intro mp mp' h; exact ⟨mp, rfl, h⟩
  | cons r rest ih =>
    intro mp mp' h
    rw [List.cons_append, aggregate] at h
    cases hs : store mp r with
    | error x => simp [hs] at h
    | ok mp0 =>
      simp only [hs] at h
      obtain ⟨mp1, h1, h2⟩ := ih mp0 mp' h
      exact ⟨mp1, by simp [aggregate, hs, h1], h2⟩

/-- With an empty list of fatigue ratios, a pass of the store loop over a muscle either leaves
the map as it is or reads past the end of that list. -/
theorem storeLoop_no_ratios (muscles : List String) (mvcs : List R) :
    ∀ (n i : Nat) (mp mp' : StdMap (List R)),
      storeLoop muscles mvcs [] n i mp = Except.ok mp' → mp' = mp := by
  intro n
  induction n with
  | zero =>
    intro i mp mp' h
    simp only [storeLoop, Except.ok.injEq] at h
    exact h.symm
  | succ n ih =>
    intro i mp mp' h
    rw [storeLoop] at h
    cases hbody : storeBody muscles mvcs [] i mp with
    | error x => simp [hbody] at h
    | ok mp1 =>
      simp only [hbody] at h
      obtain ⟨muscle, _, hcase⟩ := storeBody_ok muscles mvcs [] i mp mp1 hbody
      rcases hcase with ⟨_, _, rfl⟩ | ⟨_, _, b, _, hb, _⟩
      · exact ih (i + 1) mp1 mp' h
      · simp at hb

/-- A pass of the motion loop that completes on an empty list of fatigue ratios, the failure
result of `musclesFatigueRatio`, leaves `musclesParameters` as it was. -/
theorem mainBody_no_ratios (log : R → R) (motionName : String) (s s1 : MainState R)
    (r : MotionResult R) (h : mainBody log motionName s = Except.ok (Flow.next s1))
    (hsteps : mainSteps log motionName s.env = Except.ok (some r, s1.env))
    (hr : r.musclesFatigueRatioList = []) :
    s1.musclesParameters = s.musclesParameters := by
  obtain ⟨r', hsteps', hstore⟩ := mainBody_next log motionName s s1 h
  rw [hsteps] at hsteps'
  simp only [Except.ok.injEq, Prod.mk.injEq, Option.some.injEq, and_true] at hsteps'
  subst hsteps'
  unfold store at hstore
  rw [hr] at hstore
  exact storeLoop_no_ratios _ _ _ _ _ _ hstore

/-- For a pass of the motion loop that completes, the map after the pass equals the map before it
exactly when every muscle of the motion already had an entry. -/
theorem mainBody_map_unchanged_iff (log : R → R) (motionName : String) (s s1 : MainState R)
    (h : mainBody log motionName s = Except.ok (Flow.next s1)) :
    ∃ r : MotionResult R, mainSteps log motionName s.env = Except.ok (some r, s1.env) ∧
      (s1.musclesParameters = s.musclesParameters ↔
        ∀ m ∈ r.muscles, ∃ e, StdMap.find s.musclesParameters m = some e) := by
  obtain ⟨r, hsteps, hstore⟩ := mainBody_next log motionName s s1 h
  exact ⟨r, hsteps, store_unchanged_iff s.musclesParameters s1.musclesParameters r hstore⟩

end Generic

/-! ## The degenerate root `λF·A = 0`, `T = 1` over the reals -/

/-- With `T = 1` and `A = 0` the update is `x ↦ x(1 - ln x)`. -/
theorem newtonUpdate_degenerate (lamF x : ℝ) (hx : 0 < x) :
    newtonUpdate Real.log lamF 1 0 x = x * (1 - Real.log x) := by
  have hx0 : x ≠ 0 := ne_of_gt hx
  simp only [newtonUpdate, mul_zero, zero_div, add_zero, one_div, Real.log_inv]
  field_simp
  ring

/-- For `0 < x ≤ 1` the point `x(1 - ln x)` lies in `(0, 1]` and its distance to `1` is at most the
square of that of `x`. -/
theorem degenerate_step_bounds (x : ℝ) (hx : 0 < x) (hx1 : x ≤ 1) :
    0 < x * (1 - Real.log x) ∧ x * (1 - Real.log x) ≤ 1 ∧
      1 - x * (1 - Real.log x) ≤ (1 - x) ^ 2 := by
  have hlog : Real.log x ≤ x - 1 := Real.log_le_sub_one_of_pos hx
  have hlog' : 1 - x⁻¹ ≤ Real.log x := Real.one_sub_inv_le_log_of_pos hx
  have hinv : x * x⁻¹ = 1 := mul_inv_cancel₀ (ne_of_gt hx)
  refine ⟨?_, ?_, ?_⟩
  · have : 0 < 1 - Real.log x := by linarith
    positivity
  · have h1 : x * (1 - Real.log x) ≤ x * (x⁻¹) :=
      mul_le_mul_of_nonneg_left (by linarith) hx.le
    linarith
  · have h1 : x * (2 - x) ≤ x * (1 - Real.log x) :=
      mul_le_mul_of_nonneg_left (by linarith) hx.le
    nlinarith

/-- With `T = 1`, `A = 0` and `0 < x ≤ 1` the quantity compared with `delta` is `-ln x`. -/
theorem degenerate_test (lamF x : ℝ) (hx : 0 < x) (hx1 : x ≤ 1) :
    |newtonUpdate Real.log lamF 1 0 x - x| / |x| = -Real.log x := by
  have hlog : Real.log x ≤ 0 := Real.log_nonpos hx.le hx1
  rw [newtonUpdate_degenerate lamF x hx]
  have h1 : x * (1 - Real.log x) - x = x * (-Real.log x) := by ring
  rw [h1, abs_mul, abs_of_pos hx, abs_of_nonneg (by linarith)]
  field_simp
  ring

/-- From `0 < x ≤ 1` with `(1 - x)^(2^j)` small, the loop with more than `j` iterations left
converges, and to a value within `1e-6` of the root `1`. -/
theorem newtonLoop_degenerate (lamF : ℝ) :
    ∀ (j n : Nat) (x : ℝ), 0 < x → x ≤ 1 → (1 - x) ^ (2 ^ j) ≤ 1e-10 → j < n →
      ∃ y : ℝ, newtonLoop Real.log lamF 1 0 n x = ⟨Except.ok y, []⟩ ∧ |y - 1| < 1e-6 := by
  intro j
  induction j with
  | zero =>
    intro n x hx hx1 hsmall hn
    obtain ⟨n, rfl⟩ : ∃ n', n = n' + 1 := ⟨n - 1, by omega⟩
    obtain ⟨hpos, hle, hsq⟩ := degenerate_step_bounds x hx hx1
    have hlog' : 1 - x⁻¹ ≤ Real.log x := Real.one_sub_inv_le_log_of_pos hx
    simp only [pow_zero, pow_one] at hsmall
    have hxge : (1 : ℝ) - 1e-10 ≤ x := by linarith
    have hinv : x⁻¹ ≤ (1 - 1e-10)⁻¹ := inv_anti₀ (by norm_num) hxge
    have htest : |newtonUpdate Real.log lamF 1 0 x - x| / |x| < delta := by
      rw [degenerate_test lamF x hx hx1]
      have : (1 - 1e-10 : ℝ)⁻¹ - 1 < delta := by norm_num [delta]
      linarith
    rw [newtonLoop, if_pos htest, newtonUpdate_degenerate lamF x hx]
    refine ⟨_, rfl, ?_⟩
    rw [abs_sub_comm, abs_of_nonneg (by linarith)]
    have h1 : (1 - x) ^ 2 ≤ (1e-10 : ℝ) ^ 2 :=
      pow_le_pow_left₀ (by linarith) hsmall 2
    have h2 : ((1e-10 : ℝ)) ^ 2 < 1e-6 := by norm_num
    linarith
  | succ j ih =>
    intro n x hx hx1 hsmall hn
    obtain ⟨n, rfl⟩ : ∃ n', n = n' + 1 := ⟨n - 1, by omega⟩
    obtain ⟨hpos, hle, hsq⟩ := degenerate_step_bounds x hx hx1
    rw [newtonLoop]
    by_cases htest : |newtonUpdate Real.log lamF 1 0 x - x| / |x| < delta
    · rw [if_pos htest, newtonUpdate_degenerate lamF x hx]
      refine ⟨_, rfl, ?_⟩
      rw [degenerate_test lamF x hx hx1] at htest
      have hlog : Real.log x ≤ x - 1 := Real.log_le_sub_one_of_pos hx
      have hd : (delta : ℝ) = 1e-9 := by norm_num [delta]
      rw [hd] at htest
      have h0 : 1 - x ≤ 1e-9 := by linarith
      rw [abs_sub_comm, abs_of_nonneg (by linarith)]
      have h1 : (1 - x) ^ 2 ≤ (1e-9 : ℝ) ^ 2 :=
        pow_le_pow_left₀ (by linarith) h0 2
      have h2 : ((1e-9 : ℝ)) ^ 2 < 1e-6 := by norm_num
      linarith
    · rw [if_neg htest, newtonUpdate_degenerate lamF x hx]
      apply ih n _ hpos hle _ (by omega)
      calc (1 - x * (1 - Real.log x)) ^ (2 ^ j)
          ≤ ((1 - x) ^ 2) ^ (2 ^ j) := pow_le_pow_left₀ (by linarith) hsq _
        _ = (1 - x) ^ (2 ^ (j + 1)) := by rw [← pow_mul, pow_succ, mul_comm]
        _ ≤ 1e-10 := hsmall

/-! ## The Newton iteration over the reals, from the left of the root -/

/-- For `x > 0` and `λF·A ≥ 0` the update is `x(1 + s)` with `s` the relative step. -/
theorem newtonUpdate_eq_relStep (lamF T A x : ℝ) (hx : 0 < x) (hc : 0 ≤ lamF * A) :
    newtonUpdate Real.log lamF T A x = x * (1 + relStep Real.log lamF T A x) := by
  have hx0 : x ≠ 0 := ne_of_gt hx
  have hxc : x + lamF * A ≠ 0 := ne_of_gt (by linarith)
  simp only [newtonUpdate, relStep, modelF]
  generalize Real.log (T / x) = L
  generalize lamF * A = c at hc hxc ⊢
  have hD : (-1 : ℝ) * (1 / x + c / (x * x)) = -(x + c) / (x * x) := by
    field_simp
  rw [hD, neg_div, div_neg, sub_neg_eq_add]
  field_simp
  ring

/-- The algebra behind one Newton step from `x` with relative size `s`: with `L = ln(T/x)`,
`M = ln(1+s)` and `c = λF·A`, the model function at `x' = x(1+s)` is `L - M + c/x'`. -/
theorem step_core (x c L s M : ℝ) (hx : 0 < x) (hc : 0 ≤ c) (hs0 : 0 ≤ s)
    (hs : s * (x + c) = x * L + c) (hM1 : M ≤ s) (hM2 : s ≤ (1 + s) * M) :
    0 ≤ L - M + c / (x * (1 + s)) ∧
      x * (1 + s) * (L - M + c / (x * (1 + s))) / (x * (1 + s) + c) ≤ s ^ 2 := by
  have hx0 : x ≠ 0 := ne_of_gt hx
  have h1s : 0 < 1 + s := by linarith
  have hx' : 0 < x * (1 + s) := mul_pos hx h1s
  have hL : L = (s * (x + c) - c) / x := by
    field_simp
    linarith
  have key : x * (1 + s) * (L - M + c / (x * (1 + s)))
      = s ^ 2 * (x + c) + x * (s - (1 + s) * M) := by
    rw [hL]
    field_simp
    ring
  have hlow : c * s ^ 2 ≤ x * (1 + s) * (L - M + c / (x * (1 + s))) := by
    rw [key]
    have : x * ((1 + s) * M) ≤ x * ((1 + s) * s) :=
      mul_le_mul_of_nonneg_left (mul_le_mul_of_nonneg_left hM1 h1s.le) hx.le
    nlinarith
  have hup : x * (1 + s) * (L - M + c / (x * (1 + s))) ≤ s ^ 2 * (x + c) := by
    rw [key]
    have : x * (s - (1 + s) * M) ≤ 0 := mul_nonpos_of_nonneg_of_nonpos hx.le (by linarith)
    linarith
  constructor
  · have h0 : 0 ≤ x * (1 + s) * (L - M + c / (x * (1 + s))) :=
      le_trans (mul_nonneg hc (sq_nonneg s)) hlow
    exact nonneg_of_mul_nonneg_right h0 hx'
  · rw [div_le_iff₀ (by positivity)]
    have : s ^ 2 * (x + c) ≤ s ^ 2 * (x * (1 + s) + c) :=
      mul_le_mul_of_nonneg_left (by nlinarith) (sq_nonneg s)
    linarith

/-- The relative step `s` at `x` satisfies `s(x + λF·A) = x ln(T/x) + λF·A`. -/
theorem relStep_mul (lamF T A x : ℝ) (hx : 0 < x) (hc : 0 ≤ lamF * A) :
    relStep Real.log lamF T A x * (x + lamF * A) = x * Real.log (T / x) + lamF * A := by
  have hx0 : x ≠ 0 := ne_of_gt hx
  have hxc : x + lamF * A ≠ 0 := ne_of_gt (by linarith)
  simp only [relStep, modelF]
  field_simp
  ring

/-- Left of the root the relative step is non-negative. -/
theorem relStep_nonneg (lamF T A x : ℝ) (hx : 0 < x) (hc : 0 ≤ lamF * A)
    (hF : 0 ≤ modelF Real.log lamF T A x) : 0 ≤ relStep Real.log lamF T A x := by
  have : 0 < x + lamF * A := by linarith
  unfold relStep
  positivity

/-- One Newton step from a point `x > 0` with `f(x) ≥ 0` (left of the root): the step is
`x' = x(1+s)` with `s ≥ 0`, the next point again has `f(x') ≥ 0`, the next relative step is at
most `s²`, and the convergence test of the code compares `s` with `delta`. -/
theorem newton_step (lamF T A x : ℝ) (hT : 0 < T) (hc : 0 ≤ lamF * A) (hx : 0 < x)
    (hF : 0 ≤ modelF Real.log lamF T A x) :
    0 < newtonUpdate Real.log lamF T A x ∧
    x ≤ newtonUpdate Real.log lamF T A x ∧
    0 ≤ modelF Real.log lamF T A (newtonUpdate Real.log lamF T A x) ∧
    relStep Real.log lamF T A (newtonUpdate Real.log lamF T A x)
      ≤ relStep Real.log lamF T A x ^ 2 ∧
    |newtonUpdate Real.log lamF T A x - x| / |x| = relStep Real.log lamF T A x := by
  have hs0 := relStep_nonneg lamF T A x hx hc hF
  have hs := relStep_mul lamF T A x hx hc
  rw [newtonUpdate_eq_relStep lamF T A x hx hc]
  set s := relStep Real.log lamF T A x with hsdef
  have h1s : 0 < 1 + s := by linarith
  have hM1 : Real.log (1 + s) ≤ s := by
    have := Real.log_le_sub_one_of_pos h1s
    linarith
  have hM2 : s ≤ (1 + s) * Real.log (1 + s) := by
    have h := Real.one_sub_inv_le_log_of_pos h1s
    have h' : (1 + s) * (1 - (1 + s)⁻¹) ≤ (1 + s) * Real.log (1 + s) :=
      mul_le_mul_of_nonneg_left h h1s.le
    have h'' : (1 + s) * (1 - (1 + s)⁻¹) = s := by
      field_simp
    linarith
  have hlog : Real.log (T / (x * (1 + s)))
      = Real.log (T / x) - Real.log (1 + s) := by
    rw [← div_div, Real.log_div (by positivity) (ne_of_gt h1s)]
  obtain ⟨c1, c2⟩ := step_core x (lamF * A) (Real.log (T / x)) s (Real.log (1 + s)) hx hc hs0
    hs hM1 hM2
  have hx' : 0 < x * (1 + s) := mul_pos hx h1s
  refine ⟨hx', by nlinarith, ?_, ?_, ?_⟩
  · simp only [modelF, hlog]
    exact c1
  · simp only [relStep, modelF, hlog]
    exact c2
  · have : x * (1 + s) - x = x * s := by ring
    rw [this, abs_mul, abs_of_pos hx, abs_of_nonneg hs0]
    field_simp

/-- A point with `f(x) ≥ 0` is at most `T + λF·A`. -/
theorem le_of_modelF_nonneg (lamF T A x : ℝ) (hT : 0 < T) (hx : 0 < x)
    (hF : 0 ≤ modelF Real.log lamF T A x) : x ≤ T + lamF * A := by
  have h1 : Real.log (T / x) ≤ T / x - 1 := Real.log_le_sub_one_of_pos (by positivity)
  simp only [modelF] at hF
  have h2 : 0 ≤ T / x - 1 + lamF * A / x := by linarith
  have h3 : T / x - 1 + lamF * A / x = (T + lamF * A - x) / x := by
    field_simp
    ring
  rw [h3] at h2
  rcases div_nonneg_iff.mp h2 with ⟨h5, _⟩ | ⟨_, h6⟩
  · linarith
  · linarith

/-- Once the relative step `s` satisfies `s^(2^j) < delta`, the loop converges within `j + 1`
further iterations; the value returned is the Newton update of a point `z` left of the root
whose relative step is below `delta`. -/
theorem newtonLoop_quadratic (lamF T A : ℝ) (hT : 0 < T) (hc : 0 ≤ lamF * A) :
    ∀ (j n : Nat) (x : ℝ), 0 < x → 0 ≤ modelF Real.log lamF T A x →
      relStep Real.log lamF T A x ^ (2 ^ j) < delta → j < n →
      ∃ y z : ℝ, newtonLoop Real.log lamF T A n x = ⟨Except.ok y, []⟩ ∧
        0 < z ∧ 0 ≤ modelF Real.log lamF T A z ∧ relStep Real.log lamF T A z < delta ∧
        y = newtonUpdate Real.log lamF T A z := by
  intro j
  induction j with
  | zero =>
    intro n x hx hF hs hn
    obtain ⟨n, rfl⟩ : ∃ n', n = n' + 1 := ⟨n - 1, by omega⟩
    obtain ⟨_, _, _, _, htest⟩ := newton_step lamF T A x hT hc hx hF
    simp only [pow_zero, pow_one] at hs
    rw [newtonLoop, if_pos (by rw [htest]; exact hs)]
    exact ⟨_, x, rfl, hx, hF, hs, rfl⟩
  | succ j ih =>
    intro n x hx hF hs hn
    obtain ⟨n, rfl⟩ : ∃ n', n = n' + 1 := ⟨n - 1, by omega⟩
    obtain ⟨hx', _, hF', hsq, htest⟩ := newton_step lamF T A x hT hc hx hF
    rw [newtonLoop]
    by_cases hpass : |newtonUpdate Real.log lamF T A x - x| / |x| < delta
    · rw [if_pos hpass]
      rw [htest] at hpass
      exact ⟨_, x, rfl, hx, hF, hpass, rfl⟩
    · rw [if_neg hpass]
      apply ih n _ hx' hF' _ (by omega)
      have hs0' := relStep_nonneg lamF T A _ hx' hc hF'
      calc relStep Real.log lamF T A (newtonUpdate Real.log lamF T A x) ^ (2 ^ j)
          ≤ (relStep Real.log lamF T A x ^ 2) ^ (2 ^ j) := pow_le_pow_left₀ hs0' hsq _
        _ = relStep Real.log lamF T A x ^ (2 ^ (j + 1)) := by
            rw [← pow_mul, pow_succ, mul_comm]
        _ < delta := hs

/-- While the relative step is at least `1/2` the iterate grows by half, and it cannot pass
`T + λF·A`; so from `x` with `T + λF·A < x·(3/2)^k` the loop converges within `k + 6`
iterations. -/
theorem newtonLoop_growth (lamF T A : ℝ) (hT : 0 < T) (hc : 0 ≤ lamF * A) :
    ∀ (k n : Nat) (x : ℝ), 0 < x → 0 ≤ modelF Real.log lamF T A x →
      T + lamF * A < x * (3 / 2) ^ k → k + 6 ≤ n →
      ∃ y z : ℝ, newtonLoop Real.log lamF T A n x = ⟨Except.ok y, []⟩ ∧
        0 < z ∧ 0 ≤ modelF Real.log lamF T A z ∧ relStep Real.log lamF T A z < delta ∧
        y = newtonUpdate Real.log lamF T A z := by
  intro k
  induction k with
  | zero =>
    intro n x hx hF hlt _
    have := le_of_modelF_nonneg lamF T A x hT hx hF
    simp only [pow_zero, mul_one] at hlt
    linarith
  | succ k ih =>
    intro n x hx hF hlt hn
    have hs0 := relStep_nonneg lamF T A x hx hc hF
    by_cases hhalf : relStep Real.log lamF T A x < 1 / 2
    · apply newtonLoop_quadratic lamF T A hT hc 5 n x hx hF _ (by omega)
      calc relStep Real.log lamF T A x ^ (2 ^ 5)
          ≤ (1 / 2 : ℝ) ^ (2 ^ 5) := pow_le_pow_left₀ hs0 hhalf.le _
        _ < delta := by norm_num [delta]
    · obtain ⟨n, rfl⟩ : ∃ n', n = n' + 1 := ⟨n - 1, by omega⟩
      obtain ⟨hx', _, hF', _, htest⟩ := newton_step lamF T A x hT hc hx hF
      have hfail : ¬ |newtonUpdate Real.log lamF T A x - x| / |x| < delta := by
        rw [htest]
        have : (delta : ℝ) < 1 / 2 := by norm_num [delta]
        linarith [not_lt.mp hhalf]
      rw [newtonLoop, if_neg hfail]
      apply ih n _ hx' hF' _ (by omega)
      rw [newtonUpdate_eq_relStep lamF T A x hx hc]
      have h32 : x * (3 / 2) ≤ x * (1 + relStep Real.log lamF T A x) :=
        mul_le_mul_of_nonneg_left (by linarith [not_lt.mp hhalf]) hx.le
      have hpow : (0 : ℝ) ≤ (3 / 2) ^ k := by positivity
      calc T + lamF * A < x * (3 / 2) ^ (k + 1) := hlt
        _ = x * (3 / 2) * (3 / 2) ^ k := by rw [pow_succ]; ring
        _ ≤ x * (1 + relStep Real.log lamF T A x) * (3 / 2) ^ k :=
            mul_le_mul_of_nonneg_right h32 hpow

/-- Left of the root every Newton iterate is at least `0.1`, has `f(x_n) ≥ 0` and is followed
by an iterate at least as large. -/
theorem newtonSeq_left_of_root (lamF T A : ℝ) (hT : 0 < T) (hc : 0 ≤ lamF * A)
    (h0 : 0 ≤ modelF Real.log lamF T A 0.1) :
    ∀ n : Nat, 0.1 ≤ newtonSeq Real.log lamF T A n ∧
      0 ≤ modelF Real.log lamF T A (newtonSeq Real.log lamF T A n) ∧
      newtonSeq Real.log lamF T A n ≤ newtonSeq Real.log lamF T A (n + 1) := by
  intro n
  induction n with
  | zero =>
    have hx : (0 : ℝ) < newtonSeq Real.log lamF T A 0 := by norm_num [newtonSeq]
    have hF : 0 ≤ modelF Real.log lamF T A (newtonSeq Real.log lamF T A 0) := h0
    obtain ⟨_, hle, _, _, _⟩ := newton_step lamF T A _ hT hc hx hF
    rw [newtonUpdate_newtonSeq] at hle
    exact ⟨le_refl _, hF, hle⟩
  | succ n ih =>
    obtain ⟨hge, hF, hle⟩ := ih
    have hx : (0 : ℝ) < newtonSeq Real.log lamF T A n := by linarith
    obtain ⟨_, _, hF', _, _⟩ := newton_step lamF T A _ hT hc hx hF
    rw [newtonUpdate_newtonSeq] at hF'
    have hx' : (0 : ℝ) < newtonSeq Real.log lamF T A (n + 1) := by linarith
    obtain ⟨_, hle', _, _, _⟩ := newton_step lamF T A _ hT hc hx' hF'
    rw [newtonUpdate_newtonSeq] at hle'
    exact ⟨le_trans hge hle, hF', hle'⟩

/-! ## The elbow-flexion data of `main` -/

/-- For the elbow-flexion data, a point left of the root whose relative Newton step is below
`delta` is at least `100`. -/
theorem elbow_flexion_converged_point_large (z : ℝ) (hz : 0 < z)
    (hs : relStep Real.log 1.1616 20 700 z < delta) : 100 ≤ z := by
  by_contra hlt
  have hz100 : z < 100 := not_le.mp hlt
  have hmul := relStep_mul 1.1616 20 700 z hz (by norm_num)
  have hlog : 1 - (20 / z)⁻¹ ≤ Real.log (20 / z) :=
    Real.one_sub_inv_le_log_of_pos (by positivity)
  have hinv : (20 / z)⁻¹ = z / 20 := by rw [inv_div]
  rw [hinv] at hlog
  have h1 : z * (1 - z / 20) ≤ z * Real.log (20 / z) :=
    mul_le_mul_of_nonneg_left hlog hz.le
  have hd : (delta : ℝ) = 1e-9 := by norm_num [delta]
  rw [hd] at hs
  have h2 : relStep Real.log 1.1616 20 700 z * (z + 1.1616 * 700)
      < 1e-9 * (z + 1.1616 * 700) :=
    mul_lt_mul_of_pos_right hs (by positivity)
  nlinarith [mul_pos hz (sub_pos.mpr hz100)]

/-- Step 3 of `main` for `elbow_flexion` reads the forces and areas of its four muscles and leaves
`calibrationData` as it is. -/
theorem filterLoop_elbow_flexion :
    filterLoop "elbow_flexion" ["BICLong", "BICShort", "BRA", "BRD"] (calibrationData ℝ) [] []
      = Except.ok ([200, 100, 400, 100], [1800, 1200, 3600, 1200], calibrationData ℝ) := by
  simp [filterLoop, CalData.index2, CalData.assign2, StdMap.index, StdMap.find, StdMap.assign,
    calibrationData, getTable]

/-- The run of `main` on its `calibrationData`, given what its three calls return. -/
theorem main_elbow_flexion (tau m0 m1 m2 m3 r0 r1 r2 r3 : ℝ)
    (h1 : (maxJointTorque Real.log (jointMotions ℝ) "elbow_flexion" 20 700).1
        = ⟨Except.ok tau, []⟩)
    (h2 : (musclesMvc (jointMotions ℝ) "elbow_flexion" tau
          [("BICLong", 0.05), ("BICShort", 0.05), ("BRA", 0.02), ("BRD", 0.08)]).1
        = ⟨Except.ok [m0, m1, m2, m3], []⟩)
    (h3 : musclesFatigueRatio Real.log [m0, m1, m2, m3] [200, 100, 400, 100]
          [1800, 1200, 3600, 1200]
        = ⟨Except.ok [r0, r1, r2, r3], []⟩) :
    main Real.log (jointMotions ℝ) (calibrationData ℝ)
      = Except.ok
          { env := { jointMotions := jointMotions ℝ, calibrationData := calibrationData ℝ,
                     cerr := [] },
            musclesParameters :=
              [("BICLong", [m0, r0]), ("BICShort", [m1, r1]), ("BRA", [m2, r2]),
                ("BRD", [m3, r3])] } := by
  have hcat : StdMap.find (jointMotions ℝ) "elbow_flexion" = some
      [ ("f_ratio", Variant.dbl 1.1616),
        ("muscles", Variant.strs ["BICLong", "BICShort", "BRA", "BRD"]),
        ("proportion", Variant.dbls [1, 0.603, 2.24, 0.525]) ] := by
    simp [StdMap.find, jointMotions]
  have hcd : ∃ inner, StdMap.find (calibrationData ℝ) "elbow_flexion" = some inner ∧
      StdMap.find inner "torque_at_met" = some (CalVariant.dbl 20) ∧
      StdMap.find inner "area_curve_torque_until_met" = some (CalVariant.dbl 700) ∧
      StdMap.find inner "moment_arms" = some (CalVariant.tbl
        [("BICLong", 0.05), ("BICShort", 0.05), ("BRA", 0.02), ("BRD", 0.08)]) := by
    refine ⟨_, by simp [StdMap.find, calibrationData]; rfl, ?_, ?_, ?_⟩ <;> simp [StdMap.find]
  obtain ⟨inner, hi, hT, hA, hM⟩ := hcd
  have e1 : maxJointTorque Real.log (jointMotions ℝ) "elbow_flexion" 20 700
      = (⟨Except.ok tau, []⟩, jointMotions ℝ) := by
    rw [← h1, maxJointTorque_of_present Real.log (jointMotions ℝ) "elbow_flexion" _ 1.1616 20
      700 hcat (by simp [StdMap.find])]
  have e2 : musclesMvc (jointMotions ℝ) "elbow_flexion" tau
        [("BICLong", 0.05), ("BICShort", 0.05), ("BRA", 0.02), ("BRD", 0.08)]
      = (⟨Except.ok [m0, m1, m2, m3], []⟩, jointMotions ℝ) := by
    rw [← h2, musclesMvc_eq (jointMotions ℝ) "elbow_flexion" _
      ["BICLong", "BICShort", "BRA", "BRD"] [1, 0.603, 2.24, 0.525] tau _
      hcat (by simp [StdMap.find]) (by simp [StdMap.find]) rfl]
  have e3 : Dict.index2 (jointMotions ℝ) "elbow_flexion" "muscles"
      = (Variant.strs ["BICLong", "BICShort", "BRA", "BRD"], jointMotions ℝ) :=
    dict_index2_of_present _ _ _ _ _ hcat (by simp [StdMap.find])
  have hstore : store ([] : StdMap (List ℝ))
      { muscles := ["BICLong", "BICShort", "BRA", "BRD"], musclesMvcList := [m0, m1, m2, m3],
        musclesFatigueRatioList := [r0, r1, r2, r3] }
      = Except.ok [("BICLong", [m0, r0]), ("BICShort", [m1, r1]), ("BRA", [m2, r2]),
          ("BRD", [m3, r3])] := by
    simp +decide [store, storeLoop, storeBody, storeInsert, vecAt, StdMap.count, StdMap.find,
      StdMap.insert, StdMap.emplace]
  have hkeys : StdMap.keys (calibrationData ℝ) = ["elbow_flexion"] := by
    simp [StdMap.keys, calibrationData]
  simp only [main, hkeys, mainLoop, mainBody, mainSteps,
    calData_index2_of_present _ _ _ _ _ hi hT, calData_index2_of_present _ _ _ _ _ hi hA,
    calData_index2_of_present _ _ _ _ _ hi hM, getCalDouble, getTable, getStrings, e1, e2, e3,
    filterLoop_elbow_flexion, h3, hstore, List.append_nil]

/-- The call of `maxJointTorque` that `main` makes for `elbow_flexion` converges, to a torque
between `100` and `T + λF·A = 833.12`, and leaves `jointMotions` as it is. -/
theorem maxJointTorque_elbow_flexion :
    ∃ tau : ℝ, maxJointTorque Real.log (jointMotions ℝ) "elbow_flexion" 20 700
        = (⟨Except.ok tau, []⟩, jointMotions ℝ) ∧ 100 ≤ tau ∧ tau ≤ 833.12 := by
  have hcat : StdMap.find (jointMotions ℝ) "elbow_flexion" = some
      [ ("f_ratio", Variant.dbl 1.1616),
        ("muscles", Variant.strs ["BICLong", "BICShort", "BRA", "BRD"]),
        ("proportion", Variant.dbls [1, 0.603, 2.24, 0.525]) ] := by
    simp [StdMap.find, jointMotions]
  have hx0 : (0 : ℝ) < newtonSeq Real.log 1.1616 20 700 0 := by norm_num [newtonSeq]
  have hF0 : 0 ≤ modelF Real.log 1.1616 20 700 (newtonSeq Real.log 1.1616 20 700 0) := by
    have : 0 ≤ Real.log (20 / 0.1) := Real.log_nonneg (by norm_num)
    simp only [modelF, newtonSeq]
    positivity
  obtain ⟨tau, z, hloop, hz, hFz, hsz, htau⟩ :=
    newtonLoop_growth 1.1616 20 700 (by norm_num) (by norm_num) 23 maxIts _ hx0 hF0
      (by norm_num [newtonSeq]) (by norm_num [maxIts])
  have hz100 := elbow_flexion_converged_point_large z hz hsz
  obtain ⟨hpos, hzle, hF', _, _⟩ :=
    newton_step 1.1616 20 700 z (by norm_num) (by norm_num) hz hFz
  rw [← htau] at hzle hpos hF'
  have hup := le_of_modelF_nonneg 1.1616 20 700 tau (by norm_num) hpos hF'
  refine ⟨tau, ?_, le_trans hz100 hzle, by norm_num at hup ⊢; linarith⟩
  rw [maxJointTorque_of_present Real.log (jointMotions ℝ) "elbow_flexion" _ 1.1616 20 700
    hcat (by simp [StdMap.find]), hloop]

/-- Step 3 of `main` on `overloadedCalibrationData` reads the forces and areas of the four
muscles of `elbow_flexion` and leaves the table as it is. -/
theorem filterLoop_overloaded :
    filterLoop "elbow_flexion" ["BICLong", "BICShort", "BRA", "BRD"]
        (overloadedCalibrationData ℝ) [] []
      = Except.ok ([5000, 100, 400, 100], [1800, 1200, 3600, 1200],
          overloadedCalibrationData ℝ) := by
  simp [filterLoop, CalData.index2, CalData.assign2, StdMap.index, StdMap.find, StdMap.assign,
    overloadedCalibrationData, getTable]

/-! ## Facts of exact arithmetic

The statements of this section hold when the arithmetic is that of an exact ordered field
(and, where `Real.log` occurs, of the real logarithm).  They are facts about the formulas of
the program, not about the values its `double`s hold at every input: rounding and underflow can
turn a strict inequality into an equality and an equality into an equality up to rounding, and
overflow can make an iterate infinite or NaN. -/

section ExactArithmetic

variable {R : Type} [LinearOrderedField R]

/-- In exact arithmetic: for a catalogued motion with a non-empty `muscles` list, positive
proportions of the same length, a positive moment arm for each of its muscles and a positive
torque, the weighted sum and every MVC that the formula of `musclesMvc` gives are positive. -/
theorem musclesMvc_positive_exact (jm : Dict R) (motionName : String)
    (inner : StdMap (Variant R)) (muscles : List String) (proportions : List R) (tau : R)
    (momentArms : StdMap R)
    (hcat : StdMap.find jm motionName = some inner)
    (hmus : StdMap.find inner "muscles" = some (Variant.strs muscles))
    (hprop : StdMap.find inner "proportion" = some (Variant.dbls proportions))
    (hne : muscles ≠ [])
    (hlen : muscles.length = proportions.length)
    (hp : ∀ p ∈ proportions, 0 < p)
    (harms : ∀ muscle ∈ muscles, ∃ arm, StdMap.find momentArms muscle = some arm ∧ 0 < arm)
    (htau : 0 < tau) :
    0 < weightedSum muscles proportions momentArms ∧
    ∃ mvc : List R,
      (musclesMvc jm motionName tau momentArms).1 = ⟨Except.ok mvc, []⟩ ∧
      mvc.length = muscles.length ∧ ∀ v ∈ mvc, 0 < v := by
  have hW : 0 < weightedSum muscles proportions momentArms :=
    weightedSum_pos momentArms muscles proportions hne hlen hp (fun m hm => by
      obtain ⟨arm, hfind, hpos⟩ := harms m hm
      simpa [armOf, hfind] using hpos)
  refine ⟨hW, _, by rw [musclesMvc_eq jm motionName inner muscles proportions tau momentArms
    hcat hmus hprop hlen], by simp [hlen], ?_⟩
  intro v hv
  obtain ⟨p, hpmem, rfl⟩ := List.mem_map.mp hv
  exact mul_pos (div_pos htau hW) (hp p hpmem)

/-- In exact arithmetic: with a non-zero weighted sum, the MVCs that the formula of `musclesMvc`
gives satisfy `Σ_i mvc[i] · momentArms[muscles[i]] = maxJointTorque`. -/
theorem musclesMvc_reconstructs_torque_exact (jm : Dict R) (motionName : String)
    (inner : StdMap (Variant R)) (muscles : List String) (proportions : List R) (tau : R)
    (momentArms : StdMap R)
    (hcat : StdMap.find jm motionName = some inner)
    (hmus : StdMap.find inner "muscles" = some (Variant.strs muscles))
    (hprop : StdMap.find inner "proportion" = some (Variant.dbls proportions))
    (hlen : muscles.length = proportions.length)
    (_harms : ∀ muscle ∈ muscles, ∃ arm, StdMap.find momentArms muscle = some arm)
    (hsum : weightedSum muscles proportions momentArms ≠ 0) :
    ∃ mvc : List R,
      (musclesMvc jm motionName tau momentArms).1 = ⟨Except.ok mvc, []⟩ ∧
      (List.zipWith (fun v muscle => v * armOf momentArms muscle) mvc muscles).sum = tau := by
  refine ⟨_, by rw [musclesMvc_eq jm motionName inner muscles proportions tau momentArms
    hcat hmus hprop hlen], ?_⟩
  rw [sum_zipWith_map_mul (armOf momentArms)
    (tau / weightedSum muscles proportions momentArms) proportions muscles]
  exact div_mul_cancel₀ tau hsum

/-- In exact arithmetic: a coefficient `r` that the formula of `musclesFatigueRatio` gives at an
index with `0 < force < mvc` and `area ≠ 0` satisfies `ln(force / mvc) + r · area / mvc = 0`. -/
theorem musclesFatigueRatio_root_exact (log : R → R) (mvcs forces areas ratios : List R)
    (i : Nat) (r f m a : R)
    (hrun : musclesFatigueRatio log mvcs forces areas = ⟨Except.ok ratios, []⟩)
    (hr : ratios[i]? = some r) (hf : forces[i]? = some f) (hm : mvcs[i]? = some m)
    (ha : areas[i]? = some a) (hf0 : 0 < f) (hfm : f < m) (ha0 : a ≠ 0) :
    modelF log r f a m = 0 ∧ log (f / m) + r * a / m = 0 := by
  obtain ⟨f', m', a', hf', hm', ha', _, hform⟩ :=
    fatigueLoop_ok_inv log mvcs forces areas mvcs.length 0 [] ratios hrun rfl
      (fun j r hj => by simp at hj) i r hr
  rw [hf] at hf'
  rw [hm] at hm'
  rw [ha] at ha'
  cases hf'
  cases hm'
  cases ha'
  have hm0 : m ≠ 0 := ne_of_gt (lt_trans hf0 hfm)
  have key : log (f / m) + r * a / m = 0 := by
    rw [hform]
    field_simp
    ring
  exact ⟨key, key⟩

/-- In exact real arithmetic: on index-aligned lists of equal length in which every index has
`0 < force < mvc` and `area > 0`, every coefficient that the formula of `musclesFatigueRatio`
gives is positive. -/
theorem musclesFatigueRatio_positive_exact (mvcs forces areas : List ℝ)
    (hf : forces.length = mvcs.length) (ha : areas.length = mvcs.length)
    (hpos : ∀ (i : Nat) (f m a : ℝ), forces[i]? = some f → mvcs[i]? = some m →
      areas[i]? = some a → 0 < f ∧ f < m ∧ 0 < a) :
    ∃ ratios : List ℝ,
      musclesFatigueRatio Real.log mvcs forces areas = ⟨Except.ok ratios, []⟩ ∧
      ratios.length = mvcs.length ∧ ∀ r ∈ ratios, 0 < r := by
  have hvalid : ∀ (i : Nat) (f m : ℝ), forces[i]? = some f → mvcs[i]? = some m → f < m := by
    intro i f m hfi hmi
    have hi : i < mvcs.length := by
      by_contra hc
      rw [List.getElem?_eq_none (by omega)] at hmi
      cases hmi
    obtain ⟨a, hai⟩ := exists_getElem?_of_lt areas i (by omega)
    exact (hpos i f m a hfi hmi hai).2.1
  obtain ⟨ratios, hrun, hlen, _⟩ :=
    fatigueLoop_of_valid Real.log mvcs forces areas hf ha hvalid mvcs.length 0 [] (by simp) rfl
      (fun j _ _ _ hj => absurd hj (Nat.not_lt_zero j))
  refine ⟨ratios, hrun, hlen, ?_⟩
  intro r hr
  obtain ⟨j, hj, hjr⟩ := List.getElem_of_mem hr
  have hj' : ratios[j]? = some r := by rw [List.getElem?_eq_getElem hj, hjr]
  obtain ⟨f, m, a, hfj, hmj, haj, hfm, hform⟩ :=
    fatigueLoop_ok_inv Real.log mvcs forces areas mvcs.length 0 [] ratios hrun rfl
      (fun j r hj => by simp at hj) j r hj'
  obtain ⟨hf0, _, ha0⟩ := hpos j f m a hfj hmj haj
  have hm0 : 0 < m := lt_trans hf0 hfm
  have hlog : Real.log (f / m) < 0 :=
    Real.log_neg (by positivity) ((div_lt_one hm0).mpr hfm)
  rw [hform]
  have : 0 < -Real.log (f / m) := by linarith
  positivity

/-- In exact real arithmetic: for `T > 0` and `λF·A ≥ 0` with `f(0.1) ≥ 0`, every term `x_n` of
the Newton sequence from `x₀ = 0.1` satisfies `x_n ≥ 0.1`, `f(x_n) ≥ 0` and `x_{n+1} ≥ x_n`,
the denominator of the update is non-zero at `x_n`, and a value returned through the
convergence test is at least `0.1`. -/
theorem newton_iterates_invariant_exact (lamF T A : ℝ) (hT : 0 < T) (hc : 0 ≤ lamF * A)
    (h0 : 0 ≤ modelF Real.log lamF T A 0.1) :
    (0.1 ≤ T → 0 ≤ Real.log (10 * T) + 10 * lamF * A) ∧
    modelF Real.log lamF T A 0.1 = Real.log (10 * T) + 10 * lamF * A ∧
    (∀ n : Nat, 0.1 ≤ newtonSeq Real.log lamF T A n ∧
      0 ≤ modelF Real.log lamF T A (newtonSeq Real.log lamF T A n) ∧
      newtonSeq Real.log lamF T A n ≤ newtonSeq Real.log lamF T A (n + 1) ∧
      newtonSeq Real.log lamF T A n ≠ 0 ∧
      updateDenominator lamF A (newtonSeq Real.log lamF T A n) ≠ 0) ∧
    (∀ (jm : Dict ℝ) (motionName : String) (inner : StdMap (Variant ℝ)) (y : ℝ),
      StdMap.find jm motionName = some inner →
      StdMap.find inner "f_ratio" = some (Variant.dbl lamF) →
      (maxJointTorque Real.log jm motionName T A).1 = ⟨Except.ok y, []⟩ →
      0.1 ≤ y ∧ y ≠ -1) := by
  have hinv := newtonSeq_left_of_root lamF T A hT hc h0
  have hval : modelF Real.log lamF T A 0.1 = Real.log (10 * T) + 10 * lamF * A := by
    simp only [modelF]
    have h1 : T / 0.1 = 10 * T := by ring
    have h2 : lamF * A / 0.1 = 10 * lamF * A := by ring
    rw [h1, h2]
  refine ⟨?_, hval, ?_, ?_⟩
  · intro hT1
    have : 0 ≤ Real.log (10 * T) := Real.log_nonneg (by linarith)
    linarith
  · intro n
    obtain ⟨hge, hF, hle⟩ := hinv n
    have hx : (0 : ℝ) < newtonSeq Real.log lamF T A n := by linarith
    refine ⟨hge, hF, hle, ne_of_gt hx, ?_⟩
    have hpos : 0 < 1 / newtonSeq Real.log lamF T A n
        + lamF * A / (newtonSeq Real.log lamF T A n * newtonSeq Real.log lamF T A n) := by
      positivity
    simp only [updateDenominator]
    linarith
  · intro jm motionName inner y hcat hfr hret
    rw [maxJointTorque_of_present Real.log jm motionName inner lamF T A hcat hfr] at hret
    simp only at hret
    rcases newtonLoop_result Real.log lamF T A maxIts 0 with h | ⟨j, _, h⟩
    · rw [h] at hret
      simp at hret
    · rw [h] at hret
      simp only [Out.mk.injEq, Except.ok.injEq, and_true] at hret
      have := (hinv (0 + j + 1)).1
      rw [hret] at this
      exact ⟨this, by linarith⟩

end ExactArithmetic

/-! ## The claims of the specification -/

section Claims

variable {R : Type} [LinearOrderedField R]

/-- C1 (the code departs from the claim): a muscle `m` seen first with MVC `3` (fatigue
coefficient `30`) and then with MVC `5` (fatigue coefficient `50`) ends with the entry
`[3, 30]`: the store loop does not keep the highest MVC. -/
theorem aggregate_lower_mvc_first_is_kept :
    aggregate ([] : StdMap (List ℚ)) [⟨["m"], [3], [30]⟩, ⟨["m"], [5], [50]⟩]
      = Except.ok [("m", [3, 30])] := by
  simp [aggregate, store, storeLoop, storeBody, storeInsert, vecAt, StdMap.count, StdMap.find,
    StdMap.insert, StdMap.emplace, StdMap.index]

/-- C2 (the code departs from the claim): for the motion name `wrist_flexion`, absent from the
catalogue, with `torqueAtMet = 0.1` and `areaCurveTorqueUntilMet = 0`, `maxJointTorque` returns
the Newton iterate `0.1` and prints no diagnostic, instead of the failure result `-1` with the
unknown-motion diagnostic. -/
theorem maxJointTorque_absent_motion_returns_iterate :
    (maxJointTorque Real.log (jointMotions ℝ) "wrist_flexion" 0.1 0).1
      = ⟨Except.ok 0.1, []⟩ := by
  rw [maxJointTorque_of_absent _ _ _ _ _ (find_jointMotions_wrist ℝ)]
  show newtonLoop Real.log 0 0.1 0 (99 + 1) initValue = _
  have h1 : (0.1 : ℝ) / 0.1 = 1 := by norm_num
  have h2 : (0 : ℝ) < 1e-9 := by norm_num
  rw [newtonLoop]
  simp [newtonUpdate, initValue, delta, h1, h2]

/-- C3: for `elbow_extension` (fatigue ratio `1.0`) with `torqueAtMet = 1.0` and
`areaCurveTorqueUntilMet = 0`, over the reals, `maxJointTorque` converges within its 100
iterations (it prints no diagnostic) and returns a value within `1e-6` of `1.0`. -/
theorem maxJointTorque_elbow_extension_root :
    ∃ y : ℝ, (maxJointTorque Real.log (jointMotions ℝ) "elbow_extension" 1.0 0).1
        = ⟨Except.ok y, []⟩ ∧ |y - 1.0| < 1e-6 := by
  have hlookup : Dict.index2 (jointMotions ℝ) "elbow_extension" "f_ratio"
      = (Variant.dbl 1.0, jointMotions ℝ) :=
    dict_index2_of_present (jointMotions ℝ) "elbow_extension" "f_ratio"
      [ ("f_ratio", Variant.dbl 1.0),
        ("muscles", Variant.strs ["TRILong", "TRILat", "TRIMed"]),
        ("proportion", Variant.dbls [1, 0.929, 0.929]) ] _
      (by simp [StdMap.find, jointMotions]) (by simp [StdMap.find])
  have h := newtonLoop_degenerate 1.0 8 maxIts initValue (by norm_num [initValue])
    (by norm_num [initValue]) (by norm_num [initValue]) (by norm_num [maxIts])
  simp only [maxJointTorque, hlookup, getDouble]
  have h1 : (1.0 : ℝ) = 1 := by norm_num
  rw [h1] at h ⊢
  exact h

/-- C4: for a catalogued motion whose `muscles` and `proportion` lists have equal length,
a `momentArms` map with an entry for each of its muscles and a non-zero weighted sum,
`musclesMvc` returns one MVC per muscle, the `i`-th being
`(maxJointTorque / weightedSum) * proportions[i]`; when `proportions[0] = 1` the first MVC is
`maxJointTorque / weightedSum`. -/
theorem musclesMvc_distribution (jm : Dict R) (motionName : String)
    (inner : StdMap (Variant R)) (muscles : List String) (proportions : List R) (tau : R)
    (momentArms : StdMap R)
    (hcat : StdMap.find jm motionName = some inner)
    (hmus : StdMap.find inner "muscles" = some (Variant.strs muscles))
    (hprop : StdMap.find inner "proportion" = some (Variant.dbls proportions))
    (hlen : muscles.length = proportions.length)
    (_harms : ∀ muscle ∈ muscles, ∃ arm, StdMap.find momentArms muscle = some arm)
    (_hsum : weightedSum muscles proportions momentArms ≠ 0) :
    ∃ mvc : List R,
      (musclesMvc jm motionName tau momentArms).1 = ⟨Except.ok mvc, []⟩ ∧
      mvc.length = muscles.length ∧
      (∀ (i : Nat) (p : R), proportions[i]? = some p →
        mvc[i]? = some (tau / weightedSum muscles proportions momentArms * p)) ∧
      (proportions[0]? = some 1 →
        mvc[0]? = some (tau / weightedSum muscles proportions momentArms)) := by
  refine ⟨_, by rw [musclesMvc_eq jm motionName inner muscles proportions tau momentArms
    hcat hmus hprop hlen], by simp [hlen], ?_, ?_⟩
  · intro i p hp
    simp [List.getElem?_map, hp]
  · intro h0
    simp [List.getElem?_map, h0]

/-- An instance of `musclesMvc_distribution`: `hand_grip` with torque `12` and arms `1`
and `2`. -/
theorem musclesMvc_distribution_witness :
    ∃ mvc : List ℚ,
      (musclesMvc (jointMotions ℚ) "hand_grip" 12 [("CC", 1), ("DD", 2)]).1
        = ⟨Except.ok mvc, []⟩ ∧
      mvc.length = ["CC", "DD"].length ∧
      (∀ (i : Nat) (p : ℚ), ([1, 0.7] : List ℚ)[i]? = some p →
        mvc[i]? = some (12 / weightedSum ["CC", "DD"] ([1, 0.7] : List ℚ)
          ([("CC", 1), ("DD", 2)] : StdMap ℚ) * p)) ∧
      (([1, 0.7] : List ℚ)[0]? = some 1 →
        mvc[0]? = some (12 / weightedSum ["CC", "DD"] ([1, 0.7] : List ℚ)
          ([("CC", 1), ("DD", 2)] : StdMap ℚ))) :=
  musclesMvc_distribution (jointMotions ℚ) "hand_grip"
    [ ("f_ratio", Variant.dbl 1.1227), ("muscles", Variant.strs ["CC", "DD"]),
      ("proportion", Variant.dbls [1, 0.7]) ]
    ["CC", "DD"] [1, 0.7] 12 [("CC", 1), ("DD", 2)]
    (by simp [StdMap.find, jointMotions]) (by simp [StdMap.find]) (by simp [StdMap.find])
    rfl (by simp [StdMap.find])
    (by simp [weightedSum, armOf, StdMap.find]; norm_num)

/-- C5: on index-aligned lists of equal length, if some index has `force[i] >= mvc[i]`,
`musclesFatigueRatio` prints the force/MVC diagnostic and returns the empty list, whatever the
other indices hold. -/
theorem musclesFatigueRatio_violation (log : R → R) (mvcs forces areas : List R)
    (hf : forces.length = mvcs.length) (ha : areas.length = mvcs.length)
    (i : Nat) (f m : R) (hfi : forces[i]? = some f) (hmi : mvcs[i]? = some m) (hge : f ≥ m) :
    musclesFatigueRatio log mvcs forces areas
      = ⟨Except.ok [], [Diag.forceNotBelowMvc]⟩ :=
  fatigueLoop_of_violation log mvcs forces areas hf ha mvcs.length 0 [] (by simp)
    ⟨i, f, m, Nat.zero_le i, hfi, hmi, hge⟩

/-- An instance of `musclesFatigueRatio_violation`: the second force equals its MVC. -/
theorem musclesFatigueRatio_violation_witness :
    musclesFatigueRatio Real.log [5, 2] [1, 2] [3, 7]
      = ⟨Except.ok [], [Diag.forceNotBelowMvc]⟩ :=
  musclesFatigueRatio_violation Real.log [5, 2] [1, 2] [3, 7] rfl rfl 1 2 2 rfl rfl
    (le_refl _)

/-- C6: on index-aligned lists of equal length `n` with `force[i] < mvc[i]` at every index,
`musclesFatigueRatio` prints nothing and returns `n` ratios, the `i`-th being
`-ln(force[i] / mvc[i]) * mvc[i] / area[i]`. -/
theorem musclesFatigueRatio_valid (log : R → R) (mvcs forces areas : List R)
    (hf : forces.length = mvcs.length) (ha : areas.length = mvcs.length)
    (hvalid : ∀ (i : Nat) (f m : R), forces[i]? = some f → mvcs[i]? = some m → f < m) :
    ∃ ratios : List R,
      musclesFatigueRatio log mvcs forces areas = ⟨Except.ok ratios, []⟩ ∧
      ratios.length = mvcs.length ∧
      ∀ (i : Nat) (f m a : R), forces[i]? = some f → mvcs[i]? = some m → areas[i]? = some a →
        ratios[i]? = some (-log (f / m) * m / a) :=
  fatigueLoop_of_valid log mvcs forces areas hf ha hvalid mvcs.length 0 [] (by simp) rfl
    (fun j _ _ _ hj => absurd hj (Nat.not_lt_zero j))

/-- An instance of `musclesFatigueRatio_valid` on two muscles. -/
theorem musclesFatigueRatio_valid_witness :
    ∃ ratios : List ℝ,
      musclesFatigueRatio Real.log [5, 4] [1, 2] [3, 7] = ⟨Except.ok ratios, []⟩ ∧
      ratios.length = ([5, 4] : List ℝ).length ∧
      ∀ (i : Nat) (f m a : ℝ), ([1, 2] : List ℝ)[i]? = some f →
        ([5, 4] : List ℝ)[i]? = some m → ([3, 7] : List ℝ)[i]? = some a →
        ratios[i]? = some (-Real.log (f / m) * m / a) :=
  musclesFatigueRatio_valid Real.log [5, 4] [1, 2] [3, 7] rfl rfl
    (fun i f m hfi hmi => by
      match i with
      | 0 =>
        simp only [List.getElem?_cons_zero, Option.some.injEq] at hfi hmi
        subst hfi hmi
        norm_num
      | 1 =>
        simp only [List.getElem?_cons_succ, List.getElem?_cons_zero, Option.some.injEq]
          at hfi hmi
        subst hfi hmi
        norm_num
      | k + 2 => simp at hfi)

/-- C7: for a catalogued motion with fatigue ratio `lamF`, `maxJointTorque` returns
`x_{n+1}` of the Newton sequence for the least `n < 100` passing the convergence test, returns
the convergence failure (`-1` with its diagnostic) exactly when no `n < 100` passes it, and in
every case stops within 100 update steps. -/
theorem maxJointTorque_newton (log : R → R) (jm : Dict R) (motionName : String)
    (inner : StdMap (Variant R)) (lamF T A : R)
    (hcat : StdMap.find jm motionName = some inner)
    (hfr : StdMap.find inner "f_ratio" = some (Variant.dbl lamF)) :
    (∀ n, n < 100 → converged log lamF T A n → (∀ m, m < n → ¬ converged log lamF T A m) →
      (maxJointTorque log jm motionName T A).1
        = ⟨Except.ok (newtonSeq log lamF T A (n + 1)), []⟩) ∧
    ((maxJointTorque log jm motionName T A).1 = ⟨Except.ok (-1), [Diag.noConvergence]⟩
      ↔ ∀ n, n < 100 → ¬ converged log lamF T A n) ∧
    ((maxJointTorque log jm motionName T A).1 = ⟨Except.ok (-1), [Diag.noConvergence]⟩ ∨
      ∃ n, n < 100 ∧ (maxJointTorque log jm motionName T A).1
        = ⟨Except.ok (newtonSeq log lamF T A (n + 1)), []⟩) := by
  rw [maxJointTorque_of_present log jm motionName inner lamF T A hcat hfr]
  simp only [maxIts]
  have hfirst : ∀ n, n < 100 → converged log lamF T A n →
      (∀ m, m < n → ¬ converged log lamF T A m) →
      newtonLoop log lamF T A 100 (newtonSeq log lamF T A 0)
        = ⟨Except.ok (newtonSeq log lamF T A (n + 1)), []⟩ := by
    intro n hn hc hmin
    have := newtonLoop_of_first_converged log lamF T A 100 0 n hn (by simpa using hc)
      (fun m hm => by simpa using hmin m hm)
    simpa using this
  have hnone : (∀ n, n < 100 → ¬ converged log lamF T A n) →
      newtonLoop log lamF T A 100 (newtonSeq log lamF T A 0)
        = ⟨Except.ok (-1), [Diag.noConvergence]⟩ := by
    intro h
    exact newtonLoop_of_none_converged log lamF T A 100 0 (fun j hj => by simpa using h j hj)
  have hsplit : (∀ n, n < 100 → ¬ converged log lamF T A n) ∨
      ∃ n, n < 100 ∧ converged log lamF T A n ∧ ∀ m, m < n → ¬ converged log lamF T A m := by
    by_cases hex : ∃ n, n < 100 ∧ converged log lamF T A n
    · right
      refine ⟨Nat.find hex, (Nat.find_spec hex).1, (Nat.find_spec hex).2, ?_⟩
      intro m hm hcm
      exact Nat.find_min hex hm ⟨lt_trans hm (Nat.find_spec hex).1, hcm⟩
    · left
      intro n hn hc
      exact hex ⟨n, hn, hc⟩
  refine ⟨hfirst, ⟨?_, hnone⟩, ?_⟩
  · intro hfail n hn hc
    rcases hsplit with h | ⟨k, hk, hck, hmin⟩
    · exact h n hn hc
    · rw [hfirst k hk hck hmin] at hfail
      simp at hfail
  · rcases hsplit with h | ⟨k, hk, hck, hmin⟩
    · exact Or.inl (hnone h)
    · exact Or.inr ⟨k, hk, hfirst k hk hck hmin⟩

/-- An instance of `maxJointTorque_newton`: `elbow_extension` with `T = 1` and `A = 0`. -/
theorem maxJointTorque_newton_witness :
    (∀ n, n < 100 → converged Real.log 1.0 1 0 n →
      (∀ m, m < n → ¬ converged Real.log 1.0 1 0 m) →
      (maxJointTorque Real.log (jointMotions ℝ) "elbow_extension" 1 0).1
        = ⟨Except.ok (newtonSeq Real.log 1.0 1 0 (n + 1)), []⟩) ∧
    ((maxJointTorque Real.log (jointMotions ℝ) "elbow_extension" 1 0).1
        = ⟨Except.ok (-1), [Diag.noConvergence]⟩
      ↔ ∀ n, n < 100 → ¬ converged Real.log 1.0 1 0 n) ∧
    ((maxJointTorque Real.log (jointMotions ℝ) "elbow_extension" 1 0).1
        = ⟨Except.ok (-1), [Diag.noConvergence]⟩ ∨
      ∃ n, n < 100 ∧ (maxJointTorque Real.log (jointMotions ℝ) "elbow_extension" 1 0).1
        = ⟨Except.ok (newtonSeq Real.log 1.0 1 0 (n + 1)), []⟩) :=
  maxJointTorque_newton Real.log (jointMotions ℝ) "elbow_extension"
    [ ("f_ratio", Variant.dbl 1.0),
      ("muscles", Variant.strs ["TRILong", "TRILat", "TRIMed"]),
      ("proportion", Variant.dbls [1, 0.929, 0.929]) ]
    1.0 1 0 (by simp [StdMap.find, jointMotions]) (by simp [StdMap.find])

/-- C8 (the code departs from the claim): for `elbow_flexion` and a `momentArms` map with no
entry for the muscle `BRD`, `musclesMvc` prints no diagnostic and returns four MVC values,
computed with the arm `0` for `BRD`, instead of the empty failure result. -/
theorem musclesMvc_missing_arm_returns_values :
    (musclesMvc (jointMotions ℚ) "elbow_flexion" 300
        [("BICLong", 0.05), ("BICShort", 0.05), ("BRA", 0.02)]).1
      = ⟨Except.ok [2000000 / 833, 1206000 / 833, 640000 / 119, 150000 / 119], []⟩ := by
  rw [musclesMvc_eq (jointMotions ℚ) "elbow_flexion"
    [ ("f_ratio", Variant.dbl 1.1616),
      ("muscles", Variant.strs ["BICLong", "BICShort", "BRA", "BRD"]),
      ("proportion", Variant.dbls [1, 0.603, 2.24, 0.525]) ]
    ["BICLong", "BICShort", "BRA", "BRD"] [1, 0.603, 2.24, 0.525] 300 _
    (by simp [StdMap.find, jointMotions]) (by simp [StdMap.find]) (by simp [StdMap.find]) rfl]
  simp [weightedSum, armOf, StdMap.find]
  norm_num

/-- C9: the elbow-flexion scenario over the reals.  `maxJointTorque` converges within its 100
iterations to a positive torque; `musclesMvc` yields four positive MVCs; each stated force is
strictly below its MVC; `musclesFatigueRatio` yields four positive coefficients.  No
diagnostic is printed at any step, and these are the calls `main` makes on its
`calibrationData`: its run ends with exactly these MVCs and coefficients stored. -/
theorem elbow_flexion_end_to_end :
    ∃ tau m0 m1 m2 m3 r0 r1 r2 r3 : ℝ,
      (maxJointTorque Real.log (jointMotions ℝ) "elbow_flexion" 20 700).1
        = ⟨Except.ok tau, []⟩ ∧
      0 < tau ∧
      (musclesMvc (jointMotions ℝ) "elbow_flexion" tau
          [("BICLong", 0.05), ("BICShort", 0.05), ("BRA", 0.02), ("BRD", 0.08)]).1
        = ⟨Except.ok [m0, m1, m2, m3], []⟩ ∧
      (0 < m0 ∧ 0 < m1 ∧ 0 < m2 ∧ 0 < m3) ∧
      (200 < m0 ∧ 100 < m1 ∧ 400 < m2 ∧ 100 < m3) ∧
      musclesFatigueRatio Real.log [m0, m1, m2, m3] [200, 100, 400, 100]
          [1800, 1200, 3600, 1200]
        = ⟨Except.ok [r0, r1, r2, r3], []⟩ ∧
      (0 < r0 ∧ 0 < r1 ∧ 0 < r2 ∧ 0 < r3) ∧
      main Real.log (jointMotions ℝ) (calibrationData ℝ)
        = Except.ok
            { env := { jointMotions := jointMotions ℝ, calibrationData := calibrationData ℝ,
                       cerr := [] },
              musclesParameters :=
                [("BICLong", [m0, r0]), ("BICShort", [m1, r1]), ("BRA", [m2, r2]),
                  ("BRD", [m3, r3])] } := by
  have hcat : StdMap.find (jointMotions ℝ) "elbow_flexion" = some
      [ ("f_ratio", Variant.dbl 1.1616),
        ("muscles", Variant.strs ["BICLong", "BICShort", "BRA", "BRD"]),
        ("proportion", Variant.dbls [1, 0.603, 2.24, 0.525]) ] := by
    simp [StdMap.find, jointMotions]
  -- step 1: the solver
  have hx0 : (0 : ℝ) < newtonSeq Real.log 1.1616 20 700 0 := by norm_num [newtonSeq]
  have hF0 : 0 ≤ modelF Real.log 1.1616 20 700 (newtonSeq Real.log 1.1616 20 700 0) := by
    have : 0 ≤ Real.log (20 / 0.1) := Real.log_nonneg (by norm_num)
    simp only [modelF, newtonSeq]
    positivity
  obtain ⟨tau, z, hloop, hz, hFz, hsz, htau⟩ :=
    newtonLoop_growth 1.1616 20 700 (by norm_num) (by norm_num) 23 maxIts _ hx0 hF0
      (by norm_num [newtonSeq]) (by norm_num [maxIts])
  have hz100 := elbow_flexion_converged_point_large z hz hsz
  obtain ⟨_, hzle, _, _, _⟩ := newton_step 1.1616 20 700 z (by norm_num) (by norm_num) hz hFz
  rw [← htau] at hzle
  have htau100 : 100 ≤ tau := le_trans hz100 hzle
  -- step 2: the MVCs
  have hW : weightedSum ["BICLong", "BICShort", "BRA", "BRD"] ([1, 0.603, 2.24, 0.525] : List ℝ)
      [("BICLong", 0.05), ("BICShort", 0.05), ("BRA", 0.02), ("BRD", 0.08)] = 0.16695 := by
    simp [weightedSum, armOf, StdMap.find]
    norm_num
  have hmvc := musclesMvc_eq (jointMotions ℝ) "elbow_flexion" _
    ["BICLong", "BICShort", "BRA", "BRD"] [1, 0.603, 2.24, 0.525] tau
    [("BICLong", 0.05), ("BICShort", 0.05), ("BRA", 0.02), ("BRD", 0.08)]
    hcat (by simp [StdMap.find]) (by simp [StdMap.find]) rfl
  rw [hW] at hmvc
  simp only [List.map_cons, List.map_nil] at hmvc
  have hm0 : 200 < tau / 0.16695 * 1 := by
    rw [mul_one, lt_div_iff₀ (by norm_num)]
    linarith
  have hm1 : 100 < tau / 0.16695 * 0.603 := by nlinarith
  have hm2 : 400 < tau / 0.16695 * 2.24 := by nlinarith
  have hm3 : 100 < tau / 0.16695 * 0.525 := by nlinarith
  -- step 3: the fatigue coefficients
  have hratio : ∀ f m a : ℝ, 0 < f → f < m → 0 < a →
      0 < -1 * Real.log (f / m) * m / a := by
    intro f m a hf hfm ha
    have hm : 0 < m := lt_trans hf hfm
    have hlog : Real.log (f / m) < 0 :=
      Real.log_neg (by positivity) ((div_lt_one hm).mpr hfm)
    have : 0 < -1 * Real.log (f / m) := by linarith
    positivity
  have hp0 : (0 : ℝ) < 200 := by norm_num
  have hp1 : (0 : ℝ) < 100 := by norm_num
  have hp2 : (0 : ℝ) < 400 := by norm_num
  have ha0 : (0 : ℝ) < 1800 := by norm_num
  have ha1 : (0 : ℝ) < 1200 := by norm_num
  have ha2 : (0 : ℝ) < 3600 := by norm_num
  have h1 : (maxJointTorque Real.log (jointMotions ℝ) "elbow_flexion" 20 700).1
      = ⟨Except.ok tau, []⟩ := by
    rw [maxJointTorque_of_present Real.log (jointMotions ℝ) "elbow_flexion" _ 1.1616 20 700
      hcat (by simp [StdMap.find])]
    exact hloop
  have h2 : (musclesMvc (jointMotions ℝ) "elbow_flexion" tau
        [("BICLong", 0.05), ("BICShort", 0.05), ("BRA", 0.02), ("BRD", 0.08)]).1
      = ⟨Except.ok [tau / 0.16695 * 1, tau / 0.16695 * 0.603, tau / 0.16695 * 2.24,
          tau / 0.16695 * 0.525], []⟩ := by
    rw [hmvc]
  have h3 : musclesFatigueRatio Real.log
        [tau / 0.16695 * 1, tau / 0.16695 * 0.603, tau / 0.16695 * 2.24, tau / 0.16695 * 0.525]
        [200, 100, 400, 100] [1800, 1200, 3600, 1200]
      = ⟨Except.ok
          [-1 * Real.log (200 / (tau / 0.16695 * 1)) * (tau / 0.16695 * 1) / 1800,
            -1 * Real.log (100 / (tau / 0.16695 * 0.603)) * (tau / 0.16695 * 0.603) / 1200,
            -1 * Real.log (400 / (tau / 0.16695 * 2.24)) * (tau / 0.16695 * 2.24) / 3600,
            -1 * Real.log (100 / (tau / 0.16695 * 0.525)) * (tau / 0.16695 * 0.525) / 1200],
          []⟩ := by
    have hm0' : 200 < tau / 0.16695 := by rwa [mul_one] at hm0
    simp [musclesFatigueRatio, fatigueLoop, vecAt]
    rw [if_neg (not_le.mpr hm0'), if_neg (not_le.mpr hm1), if_neg (not_le.mpr hm2),
      if_neg (not_le.mpr hm3)]
  exact ⟨tau, _, _, _, _, _, _, _, _, h1, by linarith, h2,
    ⟨by linarith, by linarith, by linarith, by linarith⟩, ⟨hm0, hm1, hm2, hm3⟩, h3,
    ⟨hratio _ _ _ hp0 hm0 ha0, hratio _ _ _ hp1 hm1 ha1, hratio _ _ _ hp2 hm2 ha2,
      hratio _ _ _ hp1 hm3 ha1⟩,
    main_elbow_flexion _ _ _ _ _ _ _ _ _ h1 h2 h3⟩

/-- C10: every entry of the final `musclesParameters` is
`[musclesMvcList[i], musclesFatigueRatioList[i]]` of one motion at one index `i` whose muscle
is the entry's key: MVC and fatigue coefficient are never taken from different motions. -/
theorem aggregate_entry_from_one_motion (rs : List (MotionResult R))
    (musclesParameters : StdMap (List R)) (muscle : String) (entry : List R)
    (hrun : aggregate [] rs = Except.ok musclesParameters)
    (hentry : StdMap.find musclesParameters muscle = some entry) :
    ∃ r ∈ rs, ∃ (i : Nat) (mvc fr : R), r.muscles[i]? = some muscle ∧
      r.musclesMvcList[i]? = some mvc ∧ r.musclesFatigueRatioList[i]? = some fr ∧
      entry = [mvc, fr] := by
  rcases aggregate_find rs [] musclesParameters hrun muscle entry hentry with h | h
  · simp [StdMap.find] at h
  · exact h

/-- An instance of `aggregate_entry_from_one_motion`: two motions that share the muscle `b`. -/
theorem aggregate_entry_from_one_motion_witness :
    ∃ r ∈ ([⟨["a", "b"], [4, 6], [40, 60]⟩, ⟨["b", "c"], [9, 2], [90, 20]⟩] :
        List (MotionResult ℚ)),
      ∃ (i : Nat) (mvc fr : ℚ), r.muscles[i]? = some "b" ∧
        r.musclesMvcList[i]? = some mvc ∧ r.musclesFatigueRatioList[i]? = some fr ∧
        ([6, 60] : List ℚ) = [mvc, fr] :=
  aggregate_entry_from_one_motion
    [⟨["a", "b"], [4, 6], [40, 60]⟩, ⟨["b", "c"], [9, 2], [90, 20]⟩]
    [("a", [4, 40]), ("b", [6, 60]), ("c", [2, 20])] "b" [6, 60]
    (by
      simp [aggregate, store, storeLoop, storeBody, storeInsert, vecAt, StdMap.count,
        StdMap.find, StdMap.insert, StdMap.emplace, StdMap.index]
      decide)
    (by simp [StdMap.find])

/-- C11 (the code departs from the claim): on `overloadedCalibrationData`, where the force of
`BICLong` exceeds its MVC, `musclesFatigueRatio` returns its empty failure result with the
force/MVC diagnostic; `main` does not test it and enters the store loop, whose first pass
reads `musclesFatigueRatioList[0]` past the end of the empty list.  The run ends there instead
of leaving `musclesParameters` as it was and going on. -/
theorem failed_motion_reads_past_end :
    ∃ tau m0 m1 m2 m3 : ℝ,
      (maxJointTorque Real.log (jointMotions ℝ) "elbow_flexion" 20 700).1
        = ⟨Except.ok tau, []⟩ ∧
      (musclesMvc (jointMotions ℝ) "elbow_flexion" tau
          [("BICLong", 0.05), ("BICShort", 0.05), ("BRA", 0.02), ("BRD", 0.08)]).1
        = ⟨Except.ok [m0, m1, m2, m3], []⟩ ∧
      musclesFatigueRatio Real.log [m0, m1, m2, m3] [5000, 100, 400, 100]
          [1800, 1200, 3600, 1200]
        = ⟨Except.ok [], [Diag.forceNotBelowMvc]⟩ ∧
      mainSteps Real.log "elbow_flexion"
          { jointMotions := jointMotions ℝ, calibrationData := overloadedCalibrationData ℝ,
            cerr := [] }
        = Except.ok (some
            { muscles := ["BICLong", "BICShort", "BRA", "BRD"],
              musclesMvcList := [m0, m1, m2, m3], musclesFatigueRatioList := [] },
            { jointMotions := jointMotions ℝ,
              calibrationData := overloadedCalibrationData ℝ,
              cerr := [Diag.forceNotBelowMvc] }) ∧
      store ([] : StdMap (List ℝ))
          { muscles := ["BICLong", "BICShort", "BRA", "BRD"],
            musclesMvcList := [m0, m1, m2, m3], musclesFatigueRatioList := [] }
        = Except.error Exn.out_of_bounds ∧
      main Real.log (jointMotions ℝ) (overloadedCalibrationData ℝ)
        = Except.error Exn.out_of_bounds := by
  have hcat : StdMap.find (jointMotions ℝ) "elbow_flexion" = some
      [ ("f_ratio", Variant.dbl 1.1616),
        ("muscles", Variant.strs ["BICLong", "BICShort", "BRA", "BRD"]),
        ("proportion", Variant.dbls [1, 0.603, 2.24, 0.525]) ] := by
    simp [StdMap.find, jointMotions]
  obtain ⟨tau, e1, htau100, htau⟩ := maxJointTorque_elbow_flexion
  have hW : weightedSum ["BICLong", "BICShort", "BRA", "BRD"] ([1, 0.603, 2.24, 0.525] : List ℝ)
      [("BICLong", 0.05), ("BICShort", 0.05), ("BRA", 0.02), ("BRD", 0.08)] = 0.16695 := by
    simp [weightedSum, armOf, StdMap.find]
    norm_num
  have e2 := musclesMvc_eq (jointMotions ℝ) "elbow_flexion" _
    ["BICLong", "BICShort", "BRA", "BRD"] [1, 0.603, 2.24, 0.525] tau
    [("BICLong", 0.05), ("BICShort", 0.05), ("BRA", 0.02), ("BRD", 0.08)]
    hcat (by simp [StdMap.find]) (by simp [StdMap.find]) rfl
  rw [hW] at e2
  simp only [List.map_cons, List.map_nil] at e2
  have hover : (5000 : ℝ) ≥ tau / 0.16695 * 1 := by
    rw [mul_one, ge_iff_le, div_le_iff₀ (by norm_num)]
    norm_num at htau ⊢
    linarith
  have h3 : musclesFatigueRatio Real.log
        [tau / 0.16695 * 1, tau / 0.16695 * 0.603, tau / 0.16695 * 2.24, tau / 0.16695 * 0.525]
        [5000, 100, 400, 100] [1800, 1200, 3600, 1200]
      = ⟨Except.ok [], [Diag.forceNotBelowMvc]⟩ := by
    simp only [musclesFatigueRatio, List.length_cons, List.length_nil, Nat.reduceAdd]
    rw [fatigueLoop]
    simp only [vecAt, List.getElem?_cons_zero]
    rw [if_pos hover]
  have e3 : Dict.index2 (jointMotions ℝ) "elbow_flexion" "muscles"
      = (Variant.strs ["BICLong", "BICShort", "BRA", "BRD"], jointMotions ℝ) :=
    dict_index2_of_present _ _ _ _ _ hcat (by simp [StdMap.find])
  have hcd : ∃ inner, StdMap.find (overloadedCalibrationData ℝ) "elbow_flexion" = some inner ∧
      StdMap.find inner "torque_at_met" = some (CalVariant.dbl 20) ∧
      StdMap.find inner "area_curve_torque_until_met" = some (CalVariant.dbl 700) ∧
      StdMap.find inner "moment_arms" = some (CalVariant.tbl
        [("BICLong", 0.05), ("BICShort", 0.05), ("BRA", 0.02), ("BRD", 0.08)]) := by
    refine ⟨_, by simp [StdMap.find, overloadedCalibrationData]; rfl, ?_, ?_, ?_⟩ <;>
      simp [StdMap.find]
  obtain ⟨inner, hi, hT, hA, hM⟩ := hcd
  have hstore : ∀ m0 m1 m2 m3 : ℝ, store ([] : StdMap (List ℝ))
      { muscles := ["BICLong", "BICShort", "BRA", "BRD"], musclesMvcList := [m0, m1, m2, m3],
        musclesFatigueRatioList := [] }
      = Except.error Exn.out_of_bounds := by
    intro m0 m1 m2 m3
    simp [store, storeLoop, storeBody, storeInsert, vecAt, StdMap.count, StdMap.find]
  have hsteps : mainSteps Real.log "elbow_flexion"
        { jointMotions := jointMotions ℝ, calibrationData := overloadedCalibrationData ℝ,
          cerr := [] }
      = Except.ok (some
          { muscles := ["BICLong", "BICShort", "BRA", "BRD"],
            musclesMvcList := [tau / 0.16695 * 1, tau / 0.16695 * 0.603,
              tau / 0.16695 * 2.24, tau / 0.16695 * 0.525],
            musclesFatigueRatioList := [] },
          { jointMotions := jointMotions ℝ,
            calibrationData := overloadedCalibrationData ℝ,
            cerr := [Diag.forceNotBelowMvc] }) := by
    simp only [mainSteps,
      calData_index2_of_present _ _ _ _ _ hi hT, calData_index2_of_present _ _ _ _ _ hi hA,
      calData_index2_of_present _ _ _ _ _ hi hM, getCalDouble, getTable, getStrings, e1, e2, e3,
      filterLoop_overloaded, h3, List.append_nil, List.nil_append]
  have hkeys : StdMap.keys (overloadedCalibrationData ℝ) = ["elbow_flexion"] := by
    simp [StdMap.keys, overloadedCalibrationData]
  refine ⟨tau, _, _, _, _, by rw [e1], by rw [e2], h3, hsteps, hstore _ _ _ _, ?_⟩
  simp only [main, hkeys, mainLoop, mainBody, hsteps, hstore]

/-- C12 (the code departs from the claim): for the motion name `wrist_flexion`, absent from
the catalogue, a call of `maxJointTorque` leaves `jointMotions` with a new key
`wrist_flexion` holding `f_ratio = 0`, and a call of `musclesMvc` leaves it with a new key
`wrist_flexion` holding `muscles = 0` and ends in the exception `bad_variant_access`. -/
theorem calls_on_absent_motion_add_key :
    StdMap.find (jointMotions ℝ) "wrist_flexion" = none ∧
    StdMap.find (maxJointTorque Real.log (jointMotions ℝ) "wrist_flexion" 0.1 0).2
        "wrist_flexion"
      = some [("f_ratio", Variant.dbl 0)] ∧
    (musclesMvc (jointMotions ℝ) "wrist_flexion" 1 []).1.result
      = Except.error Exn.bad_variant_access ∧
    StdMap.find (musclesMvc (jointMotions ℝ) "wrist_flexion" 1 []).2 "wrist_flexion"
      = some [("muscles", Variant.dbl 0)] := by
  refine ⟨find_jointMotions_wrist ℝ, ?_, ?_, ?_⟩
  · simp +decide [maxJointTorque, Dict.index2, StdMap.index, StdMap.find, jointMotions,
      StdMap.emplace, StdMap.assign, Variant.init, getDouble]
  · simp +decide [musclesMvc, Dict.index2, StdMap.index, StdMap.find, jointMotions,
      StdMap.emplace, StdMap.assign, Variant.init, getStrings]
  · simp +decide [musclesMvc, Dict.index2, StdMap.index, StdMap.find, jointMotions,
      StdMap.emplace, StdMap.assign, Variant.init, getStrings]

/-- C13: for `T > 0` and `x > 0`, over the reals, the numerator of the Newton update of
`maxJointTorque` is the model function `f(x) = ln(T/x) + λF·A/x`, and its denominator
`-(1/x + λF·A/x²)` is the derivative of that function at `x`. -/
theorem updateDenominator_is_derivative (lamF T A x : ℝ) (hT : 0 < T) (hx : 0 < x) :
    (∀ y : ℝ, updateNumerator Real.log lamF T A y = modelF Real.log lamF T A y) ∧
    updateDenominator lamF A x = -(1 / x + lamF * A / x ^ 2) ∧
    HasDerivAt (fun y : ℝ => Real.log (T / y) + lamF * A / y)
      (updateDenominator lamF A x) x := by
  have hx0 : x ≠ 0 := ne_of_gt hx
  have hT0 : T ≠ 0 := ne_of_gt hT
  refine ⟨fun y => rfl, by simp [updateDenominator, pow_two], ?_⟩
  have hinv : HasDerivAt (fun y : ℝ => y⁻¹) (-(x ^ 2)⁻¹) x := hasDerivAt_inv hx0
  have h1 : HasDerivAt (fun y : ℝ => T / y) (T * -(x ^ 2)⁻¹) x := by
    simpa [div_eq_mul_inv] using hinv.const_mul T
  have h2 : HasDerivAt (fun y : ℝ => Real.log (T / y)) ((T / x)⁻¹ * (T * -(x ^ 2)⁻¹)) x := by
    have := (Real.hasDerivAt_log (div_ne_zero hT0 hx0)).comp x h1
    simpa [Function.comp] using this
  have h3 : HasDerivAt (fun y : ℝ => lamF * A / y) (lamF * A * -(x ^ 2)⁻¹) x := by
    simpa [div_eq_mul_inv] using hinv.const_mul (lamF * A)
  have h := h2.add h3
  have hval : (T / x)⁻¹ * (T * -(x ^ 2)⁻¹) + lamF * A * -(x ^ 2)⁻¹
      = updateDenominator lamF A x := by
    simp only [updateDenominator]
    field_simp
    ring
  rw [hval] at h
  exact h

/-- An instance of `updateDenominator_is_derivative` at `T = 20`, `x = 0.1` with the
elbow-flexion fatigue ratio. -/
theorem updateDenominator_is_derivative_witness :
    (∀ y : ℝ, updateNumerator Real.log 1.1616 20 700 y = modelF Real.log 1.1616 20 700 y) ∧
    updateDenominator (1.1616 : ℝ) 700 0.1 = -(1 / 0.1 + 1.1616 * 700 / 0.1 ^ 2) ∧
    HasDerivAt (fun y : ℝ => Real.log (20 / y) + 1.1616 * 700 / y)
      (updateDenominator (1.1616 : ℝ) 700 0.1) 0.1 :=
  updateDenominator_is_derivative 1.1616 20 700 0.1 (by norm_num) (by norm_num)

/-- C14: when the store loop has run over a sequence of motions, the keys of the final
`musclesParameters` are exactly the muscle names occurring in the `muscles` lists of those
motions, and no key occurs twice. -/
theorem aggregate_keys_are_muscles (rs : List (MotionResult R))
    (musclesParameters : StdMap (List R))
    (hrun : aggregate [] rs = Except.ok musclesParameters) :
    (∀ k : String, k ∈ StdMap.keys musclesParameters ↔ ∃ r ∈ rs, k ∈ r.muscles) ∧
    (∀ k : String, (∃ e, StdMap.find musclesParameters k = some e) ↔
      ∃ r ∈ rs, k ∈ r.muscles) ∧
    (StdMap.keys musclesParameters).Nodup := by
  obtain ⟨hkeys, hnd⟩ := aggregate_keys rs [] musclesParameters hrun
  have h1 : ∀ k : String, k ∈ StdMap.keys musclesParameters ↔ ∃ r ∈ rs, k ∈ r.muscles := by
    intro k
    rw [hkeys k]
    simp [StdMap.keys]
  refine ⟨h1, fun k => ?_, hnd (by simp [StdMap.keys])⟩
  rw [← StdMap.mem_keys_iff]
  exact h1 k

/-- An instance of `aggregate_keys_are_muscles`: two motions that share the muscle `b`. -/
theorem aggregate_keys_are_muscles_witness :
    (∀ k : String, k ∈ StdMap.keys ([("a", [4, 40]), ("b", [6, 60]), ("c", [2, 20])] :
        StdMap (List ℚ)) ↔
      ∃ r ∈ ([⟨["a", "b"], [4, 6], [40, 60]⟩, ⟨["b", "c"], [9, 2], [90, 20]⟩] :
        List (MotionResult ℚ)), k ∈ r.muscles) ∧
    (∀ k : String, (∃ e, StdMap.find ([("a", [4, 40]), ("b", [6, 60]), ("c", [2, 20])] :
        StdMap (List ℚ)) k = some e) ↔
      ∃ r ∈ ([⟨["a", "b"], [4, 6], [40, 60]⟩, ⟨["b", "c"], [9, 2], [90, 20]⟩] :
        List (MotionResult ℚ)), k ∈ r.muscles) ∧
    (StdMap.keys ([("a", [4, 40]), ("b", [6, 60]), ("c", [2, 20])] :
        StdMap (List ℚ))).Nodup :=
  aggregate_keys_are_muscles
    [⟨["a", "b"], [4, 6], [40, 60]⟩, ⟨["b", "c"], [9, 2], [90, 20]⟩]
    [("a", [4, 40]), ("b", [6, 60]), ("c", [2, 20])]
    (by
      simp +decide [aggregate, store, storeLoop, storeBody, storeInsert, vecAt, StdMap.count,
        StdMap.find, StdMap.insert, StdMap.emplace, StdMap.index])

/-- C18: when the store loop has run over a sequence of motions, the entry of a muscle is the
pair `[musclesMvcList[i], musclesFatigueRatioList[i]]` of the first motion whose `muscles`
list holds it, at the first such index `i`; and a pass of the store loop over any motion
leaves an entry that is already stored as it is. -/
theorem aggregate_first_motion_wins (pre post : List (MotionResult R)) (r : MotionResult R)
    (musclesParameters : StdMap (List R)) (muscle : String) (i : Nat) (mvc fr : R)
    (hrun : aggregate [] (pre ++ r :: post) = Except.ok musclesParameters)
    (hpre : ∀ r' ∈ pre, muscle ∉ r'.muscles)
    (hi : r.muscles[i]? = some muscle)
    (hfirst : ∀ j, j < i → r.muscles[j]? ≠ some muscle)
    (hmvc : r.musclesMvcList[i]? = some mvc)
    (hfr : r.musclesFatigueRatioList[i]? = some fr) :
    StdMap.find musclesParameters muscle = some [mvc, fr] ∧
    ∀ (mp mp' : StdMap (List R)) (r' : MotionResult R) (e : List R),
      store mp r' = Except.ok mp' → StdMap.find mp muscle = some e →
      StdMap.find mp' muscle = some e := by
  refine ⟨?_, fun mp mp' r' e hs he => storeLoop_preserves _ _ _ _ _ _ _ hs muscle e he⟩
  obtain ⟨mp1, hpre_run, hrest⟩ := aggregate_append pre (r :: post) [] musclesParameters hrun
  have hnone : StdMap.find mp1 muscle = none := by
    cases hfind : StdMap.find mp1 muscle with
    | none => rfl
    | some e =>
      rcases aggregate_find pre [] mp1 hpre_run muscle e hfind with h | ⟨r', hr', j, _, _, hj, _⟩
      · simp [StdMap.find] at h
      · exact absurd (List.mem_iff_getElem?.mpr ⟨j, hj⟩) (hpre r' hr')
  rw [aggregate] at hrest
  cases hs : store mp1 r with
  | error x => simp [hs] at hrest
  | ok mp2 =>
    simp only [hs] at hrest
    have hlt : i < r.muscles.length := by
      by_contra hc
      rw [List.getElem?_eq_none (by omega)] at hi
      cases hi
    have h2 : StdMap.find mp2 muscle = some [mvc, fr] :=
      storeLoop_first_occurrence r.muscles r.musclesMvcList r.musclesFatigueRatioList muscle i
        mvc fr hi hmvc hfr r.muscles.length 0 mp1 mp2 hs (Nat.zero_le i) (by omega) hnone
        (fun j _ hj => hfirst j hj)
    exact aggregate_preserves post mp2 musclesParameters hrest muscle _ h2

/-- An instance of `aggregate_first_motion_wins`: the muscle `b` is first seen in the second
of three motions, with the MVC `2`; the third motion, with the MVC `9`, does not replace it. -/
theorem aggregate_first_motion_wins_witness :
    StdMap.find ([("a", [4, 40]), ("b", [2, 20]), ("c", [7, 70])] : StdMap (List ℚ)) "b"
      = some [2, 20] ∧
    ∀ (mp mp' : StdMap (List ℚ)) (r' : MotionResult ℚ) (e : List ℚ),
      store mp r' = Except.ok mp' → StdMap.find mp "b" = some e →
      StdMap.find mp' "b" = some e :=
  aggregate_first_motion_wins [⟨["a"], [4], [40]⟩] [⟨["b"], [9], [90]⟩]
    ⟨["c", "b"], [7, 2], [70, 20]⟩
    [("a", [4, 40]), ("b", [2, 20]), ("c", [7, 70])] "b" 1 2 20
    (by
      simp +decide [aggregate, store, storeLoop, storeBody, storeInsert, vecAt, StdMap.count,
        StdMap.find, StdMap.insert, StdMap.emplace, StdMap.index])
    (by simp)
    rfl
    (fun j hj => by
      have : j = 0 := by omega
      subst this
      simp)
    rfl rfl

end Claims

end Calibration
